import Mathlib

/-!
# auth-extproc: API-key authentication and per-user quota filter

A shallow embedding of `main.go` (an Envoy external-processor sidecar) and a
verification of its specification.

Modelling conventions.

* Go strings and byte slices are Lean `String`s (the key file and the header
  values are taken to be valid UTF-8, as the specification states).
* A Go `map[string]V` is an association list with at most one entry per key;
  `len` is the length of the list.
* `uint64` counters are natural numbers, incremented modulo `2 ^ 64`.
* A gRPC stream is the finite sequence of messages its successive `Recv` calls
  deliver, the error `Recv` reports once they are exhausted, and the outcomes
  of its successive `Send` calls.
* The standard-library and protobuf functions the program calls
  (`strings.Split`, `strings.TrimSpace`, `unicode.IsSpace`, `status.Code`, the
  nil-safe protobuf getters) are modelled from their documented behaviour.
-/

namespace AuthExtProc

/-! ## Go strings -/

/-- Go's `unicode.IsSpace`: the code points with the Unicode White_Space property. -/
def unicode.IsSpace (r : Char) : Bool :=
  let n := r.toNat
  (9 ≤ n && n ≤ 13) || n == 32 || n == 0x85 || n == 0xA0 || n == 0x1680 ||
  (0x2000 ≤ n && n ≤ 0x200A) || n == 0x2028 || n == 0x2029 || n == 0x202F ||
  n == 0x205F || n == 0x3000

/-- Scanning loop of `strings.Split` for a non-empty separator: `skip` counts the
characters of a separator occurrence still to be passed over, `cur` holds the
current field in reverse. -/
def strings.splitGo (sep : List Char) : Nat → List Char → List Char → List (List Char)
  | _, [], cur => [cur.reverse]
  | skip + 1, _ :: cs, cur => strings.splitGo sep skip cs cur
  | 0, c :: cs, cur =>
    if sep.isPrefixOf (c :: cs) then
      cur.reverse :: strings.splitGo sep (sep.length - 1) cs []
    else
      strings.splitGo sep 0 cs (c :: cur)

/-- Go's `strings.Split(s, sep)`: the substrings of `s` between the
(non-overlapping, leftmost) occurrences of `sep`; with an empty `sep` the
string is exploded into its characters. -/
def strings.Split (s sep : String) : List String :=
  if sep.data = [] then s.data.map (fun c => String.mk [c])
  else (strings.splitGo sep.data 0 s.data []).map String.mk

/-- Go's `strings.TrimSpace(s)`: `s` without its leading and trailing white space. -/
def strings.TrimSpace (s : String) : String :=
  String.mk ((s.data.dropWhile unicode.IsSpace).reverse.dropWhile unicode.IsSpace).reverse

/-! ## Go maps -/

/-- A Go `map[string]V`: an association list holding each key at most once. -/
abbrev GoMap (V : Type) := List (String × V)

/-- The comma-ok read `v, ok := m[k]`. -/
def GoMap.get? {V : Type} (m : GoMap V) (k : String) : Option V :=
  match m with
  | [] => none
  | (k', v) :: rest => if k' = k then some v else GoMap.get? rest k

/-- The plain read `m[k]`, which yields the zero value for an absent key. -/
def GoMap.getD {V : Type} (m : GoMap V) (k : String) (zero : V) : V :=
  (m.get? k).getD zero

/-- The assignment `m[k] = v`: replaces the entry of `k` when there is one,
adds an entry otherwise. -/
def GoMap.set {V : Type} (m : GoMap V) (k : String) (v : V) : GoMap V :=
  match m with
  | [] => [(k, v)]
  | (k', v') :: rest => if k' = k then (k, v) :: rest else (k', v') :: GoMap.set rest k v

/-- Go's `len(m)`. -/
def GoMap.len {V : Type} (m : GoMap V) : Nat := m.length

/-! ## Errors -/

/-- The gRPC status codes (`google.golang.org/grpc/codes`). -/
inductive codes
  | OK | Canceled | Unknown | InvalidArgument | DeadlineExceeded | NotFound
  | AlreadyExists | PermissionDenied | ResourceExhausted | FailedPrecondition
  | Aborted | OutOfRange | Unimplemented | Internal | Unavailable | DataLoss
  | Unauthenticated
  deriving DecidableEq, Repr

/-- Go's `(codes.Code).String`. -/
def codes.String : codes → String
  | .OK => "OK"
  | .Canceled => "Canceled"
  | .Unknown => "Unknown"
  | .InvalidArgument => "InvalidArgument"
  | .DeadlineExceeded => "DeadlineExceeded"
  | .NotFound => "NotFound"
  | .AlreadyExists => "AlreadyExists"
  | .PermissionDenied => "PermissionDenied"
  | .ResourceExhausted => "ResourceExhausted"
  | .FailedPrecondition => "FailedPrecondition"
  | .Aborted => "Aborted"
  | .OutOfRange => "OutOfRange"
  | .Unimplemented => "Unimplemented"
  | .Internal => "Internal"
  | .Unavailable => "Unavailable"
  | .DataLoss => "DataLoss"
  | .Unauthenticated => "Unauthenticated"

/-- A non-nil Go `error` value of a stream or file operation, as far as the
program can tell errors apart. -/
inductive GoError
  /-- The sentinel `io.EOF`. -/
  | EOF
  /-- A gRPC status error with its code and description. -/
  | grpcStatus (code : codes) (desc : String)
  /-- Any other error, by its message. -/
  | other (msg : String)
  deriving DecidableEq, Repr

/-- The function `status.Code(err)` for a non-nil error: the code of a status
error, and `Unknown` for every other error. -/
def status.Code : GoError → codes
  | .EOF => .Unknown
  | .grpcStatus c _ => c
  | .other _ => .Unknown

/-- The method `err.Error()`, which the verb `%v` prints. -/
def GoError.Error : GoError → String
  | .EOF => "EOF"
  | .grpcStatus c d => "rpc error: code = " ++ c.String ++ " desc = " ++ d
  | .other m => m

/-- The errors `newAuthServer` returns: `fmt.Errorf` wrapping the cause with
the text "failed to open key file %q: %w" or "error reading key file: %w". -/
inductive LoadError
  | openFailed (keyFilePath : String) (cause : GoError)
  | readFailed (cause : GoError)
  deriving DecidableEq, Repr

/-! ## Protocol messages -/

/-- A header of `envoy.config.core.v3`: name, string value and raw byte value. -/
structure HeaderValue where
  Key : String
  Value : String
  RawValue : String
  deriving DecidableEq, Repr

/-- Nil-safe getter `(*HeaderValue).GetKey`. -/
def HeaderValue.GetKey : Option HeaderValue → String
  | some h => h.Key
  | none => ""

/-- Nil-safe getter `(*HeaderValue).GetRawValue`. -/
def HeaderValue.GetRawValue : Option HeaderValue → String
  | some h => h.RawValue
  | none => ""

/-- An ordered list of header pointers. -/
structure HeaderMap where
  Headers : List (Option HeaderValue)
  deriving DecidableEq, Repr

/-- Nil-safe getter `(*HeaderMap).GetHeaders`. -/
def HeaderMap.GetHeaders : Option HeaderMap → List (Option HeaderValue)
  | some m => m.Headers
  | none => []

/-- The payload of a request-headers or response-headers event. -/
structure HttpHeaders where
  Headers : Option HeaderMap
  EndOfStream : Bool
  deriving DecidableEq, Repr

/-- Nil-safe getter `(*HttpHeaders).GetHeaders`. -/
def HttpHeaders.GetHeaders : Option HttpHeaders → Option HeaderMap
  | some h => h.Headers
  | none => none

/-- The payload of a request-body or response-body event. -/
structure HttpBody where
  Body : String
  EndOfStream : Bool
  deriving DecidableEq, Repr

/-- The payload of a trailers event. -/
structure HttpTrailers where
  Trailers : Option HeaderMap
  deriving DecidableEq, Repr

/-- The `oneof request` of a `ProcessingRequest`. -/
inductive ProcessingRequest_Request
  | RequestHeaders (v : Option HttpHeaders)
  | ResponseHeaders (v : Option HttpHeaders)
  | RequestBody (v : Option HttpBody)
  | ResponseBody (v : Option HttpBody)
  | RequestTrailers (v : Option HttpTrailers)
  | ResponseTrailers (v : Option HttpTrailers)
  deriving DecidableEq, Repr

/-- An inbound event; `Request = none` is the unset `oneof`. -/
structure ProcessingRequest where
  Request : Option ProcessingRequest_Request
  deriving DecidableEq, Repr

/-- The HTTP status codes of `envoy.type.v3.StatusCode`, by their number. -/
abbrev StatusCode := Nat

/-- `envoy_type_v3.StatusCode_Unauthorized`. -/
def StatusCode_Unauthorized : StatusCode := 401

/-- `envoy_type_v3.StatusCode_TooManyRequests`. -/
def StatusCode_TooManyRequests : StatusCode := 429

/-- `envoy.type.v3.HttpStatus`. -/
structure HttpStatus where
  Code : StatusCode
  deriving DecidableEq, Repr

/-- A header mutation: headers to set and header names to remove. -/
structure HeaderMutation where
  SetHeaders : List HeaderValue
  RemoveHeaders : List String
  deriving DecidableEq, Repr

/-- `CommonResponse`: response status (0 is CONTINUE) and optional mutations. -/
structure CommonResponse where
  Status : Nat
  HeaderMutation : Option HeaderMutation
  deriving DecidableEq, Repr

/-- `HeadersResponse`. -/
structure HeadersResponse where
  Response : Option CommonResponse
  deriving DecidableEq, Repr

/-- `BodyResponse`. -/
structure BodyResponse where
  Response : Option CommonResponse
  deriving DecidableEq, Repr

/-- `TrailersResponse`. -/
structure TrailersResponse where
  HeaderMutation : Option HeaderMutation
  deriving DecidableEq, Repr

/-- `ImmediateResponse`: the fields the program sets, and the optional header
mutation it leaves unset. -/
structure ImmediateResponse where
  Status : Option HttpStatus
  Headers : Option HeaderMutation
  Body : String
  deriving DecidableEq, Repr

/-- The `oneof response` of a `ProcessingResponse`. -/
inductive ProcessingResponse_Response
  | RequestHeaders (v : HeadersResponse)
  | ResponseHeaders (v : HeadersResponse)
  | RequestBody (v : BodyResponse)
  | ResponseBody (v : BodyResponse)
  | RequestTrailers (v : TrailersResponse)
  | ResponseTrailers (v : TrailersResponse)
  | ImmediateResponse (v : ImmediateResponse)
  deriving DecidableEq, Repr

/-- An outbound verdict. -/
structure ProcessingResponse where
  Response : Option ProcessingResponse_Response
  deriving DecidableEq, Repr

/-! ## The server -/

/-- The constant `maxRequestsPerUser`. -/
def maxRequestsPerUser : Nat := 5

/-- The struct `authServer`: the loaded API keys and the in-memory counter of
user queries. The mutex `mu` guards the check-and-increment of `Process`,
which is therefore one atomic step of the sequential model; the mutex itself
appears in the interleaving model `Conc` below. -/
structure authServer where
  keys : GoMap String
  userQueries : GoMap Nat
  deriving DecidableEq, Repr

/-- What opening and scanning the key file delivers: the successive values of
`scanner.Text()` and the value of `scanner.Err()` after the loop. -/
structure KeyFile where
  lines : List String
  scanErr : Option GoError
  deriving DecidableEq, Repr

/-- The variables of the loading loop: the map under construction, the line
counter and the log lines printed so far. -/
structure LoadState where
  keys : GoMap String
  lineNum : Nat
  log : List String
  deriving DecidableEq, Repr

/-- The text of `log.Printf("Warning: malformed line #%d in key file, skipping.", lineNum)`. -/
def malformedWarning (lineNum : Nat) : String :=
  "Warning: malformed line #" ++ toString lineNum ++ " in key file, skipping."

/-- One iteration of the `for scanner.Scan()` loop of `newAuthServer`. -/
def loadLine (st : LoadState) (line : String) : LoadState :=
  let lineNum := st.lineNum + 1
  if line = "" then
    { st with lineNum := lineNum }
  else
    match strings.Split line "," with
    | [part0, part1] =>
      let apiKey := strings.TrimSpace part0
      let userName := strings.TrimSpace part1
      if apiKey ≠ "" ∧ userName ≠ "" then
        { st with lineNum := lineNum, keys := st.keys.set apiKey userName }
      else
        { st with lineNum := lineNum }
    | _ =>
      { st with lineNum := lineNum, log := st.log ++ [malformedWarning lineNum] }

/-- The whole scanning loop, from the empty map and line number 0. -/
def loadLines (lines : List String) : LoadState :=
  lines.foldl loadLine { keys := [], lineNum := 0, log := [] }

/-- The function `newAuthServer`: `opened` is the outcome of `os.Open` on the
path followed by the scan of the file. Returns the server and the log lines
printed, or the error. -/
def newAuthServer (keyFilePath : String) (opened : Except GoError KeyFile) :
    Except LoadError (authServer × List String) :=
  match opened with
  | .error err => .error (.openFailed keyFilePath err)
  | .ok file =>
    let st := loadLines file.lines
    match file.scanErr with
    | some err => .error (.readFailed err)
    | none =>
      .ok ({ keys := st.keys, userQueries := [] },
           st.log ++ ["Loaded " ++ toString st.keys.len ++ " API keys."])

/-- The function `findHeaderValue`. -/
def findHeaderValue : List (Option HeaderValue) → String → String
  | [], _ => ""
  | h :: rest, key =>
    if HeaderValue.GetKey h = key then HeaderValue.GetRawValue h
    else findHeaderValue rest key

/-- The message built by `sendContinueResponse`. -/
def continueResponse : ProcessingResponse :=
  { Response := some (.RequestHeaders { Response := none }) }

/-- The message built by `sendDenyResponse`. -/
def denyResponse (body : String) (code : StatusCode) : ProcessingResponse :=
  { Response := some (.ImmediateResponse
      { Status := some { Code := code }, Headers := none, Body := body }) }

/-- The call `stream.Send(m)`: `sendErrs` lists the outcomes of the successive
sends still to come on the stream (`none` is success; past the end of the list
every send succeeds). Returns the error, the outcomes left and the message
handed to the transport. -/
def Send (sendErrs : List (Option GoError)) (m : ProcessingResponse) :
    Option GoError × List (Option GoError) × List ProcessingResponse :=
  match sendErrs with
  | [] => (none, [], [m])
  | r :: rest => (r, rest, [m])

/-- The function `sendContinueResponse`. -/
def sendContinueResponse (sendErrs : List (Option GoError)) :
    Option GoError × List (Option GoError) × List ProcessingResponse :=
  Send sendErrs continueResponse

/-- The function `sendDenyResponse`. -/
def sendDenyResponse (sendErrs : List (Option GoError)) (body : String) (code : StatusCode) :
    Option GoError × List (Option GoError) × List ProcessingResponse :=
  Send sendErrs (denyResponse body code)

/-- The effect of one iteration of the loop of `Process` after a successful
`Recv`: the server afterwards, the send outcomes left, the messages handed to
`stream.Send`, the log lines printed, and `ret = some r` when the iteration returns `r` from
`Process` (`r = none` is a nil error), `ret = none` when the loop goes on. -/
structure Step where
  srv : authServer
  sendErrs : List (Option GoError)
  sent : List ProcessingResponse
  log : List String
  ret : Option (Option GoError)
  deriving DecidableEq, Repr

/-- The body of the loop of `Process` for a received event `req`. -/
def handle (s : authServer) (sendErrs : List (Option GoError)) (req : ProcessingRequest) : Step :=
  match req.Request with
  | some (.RequestHeaders v) =>
    let headers := HeaderMap.GetHeaders (HttpHeaders.GetHeaders v)
    let apiKey := findHeaderValue headers "x-api-key"
    match s.keys.get? apiKey with
    | none =>
      let r := sendDenyResponse sendErrs "Invalid or missing API Key." StatusCode_Unauthorized
      { srv := s, sendErrs := r.2.1, sent := r.2.2,
        log := ["DENY: Request with missing or invalid API key."],
        ret := some r.1 }
    | some username =>
      let currentCount := s.userQueries.getD username 0
      if currentCount ≥ maxRequestsPerUser then
        let r := sendDenyResponse sendErrs
          "Daily quota has been reached and will reset at 4:00AM EST." StatusCode_TooManyRequests
        { srv := s, sendErrs := r.2.1, sent := r.2.2,
          log := ["DENY: Quota exceeded for user '" ++ username ++ "'."],
          ret := some r.1 }
      else
        let s1 : authServer :=
          { s with userQueries :=
              s.userQueries.set username ((s.userQueries.getD username 0 + 1) % 2 ^ 64) }
        let newCount := s1.userQueries.getD username 0
        let r := sendContinueResponse sendErrs
        { srv := s1, sendErrs := r.2.1, sent := r.2.2,
          log := ["ALLOW: Request " ++ toString newCount ++ "/" ++ toString maxRequestsPerUser ++
                  " for user '" ++ username ++ "'."],
          ret := r.1.map some }
  | _ =>
    let r := sendContinueResponse sendErrs
    { srv := s, sendErrs := r.2.1, sent := r.2.2, log := [], ret := r.1.map some }

/-- A stream as `Process` sees it: the events its successive `Recv` calls
deliver, the error `Recv` reports after them (`io.EOF` when the peer closes),
and the outcomes of its successive `Send` calls. -/
structure Stream where
  events : List ProcessingRequest
  recvEnd : GoError
  sendErrs : List (Option GoError)
  deriving DecidableEq, Repr

/-- The result of a call of `Process`: its return value (`none` is nil), the
server afterwards, the messages handed to `stream.Send` in order, the log
lines printed, and the events of the stream that were never received. -/
structure Outcome where
  err : Option GoError
  srv : authServer
  sent : List ProcessingResponse
  log : List String
  unread : List ProcessingRequest
  deriving DecidableEq, Repr

/-- The loop of `Process` over the events still to be received. -/
def ProcessLoop (recvEnd : GoError) :
    authServer → List (Option GoError) → List ProcessingRequest → Outcome
  | s, _, [] =>
    if recvEnd = GoError.EOF ∨ status.Code recvEnd = codes.Canceled then
      { err := none, srv := s, sent := [], log := [], unread := [] }
    else
      { err := some recvEnd, srv := s, sent := [],
        log := ["stream recv error: " ++ recvEnd.Error], unread := [] }
  | s, sendErrs, req :: rest =>
    let st := handle s sendErrs req
    match st.ret with
    | some r => { err := r, srv := st.srv, sent := st.sent, log := st.log, unread := rest }
    | none =>
      let o := ProcessLoop recvEnd st.srv st.sendErrs rest
      { err := o.err, srv := o.srv, sent := st.sent ++ o.sent, log := st.log ++ o.log,
        unread := o.unread }

/-- The method `authServer.Process` on a stream. -/
def Process (s : authServer) (stream : Stream) : Outcome :=
  ProcessLoop stream.recvEnd s stream.sendErrs stream.events

/-- Successive calls of `Process`, one per stream, each starting from the
server state the previous one left: the final server and the outcomes. -/
def serve : authServer → List Stream → authServer × List Outcome
  | s, [] => (s, [])
  | s, st :: rest =>
    let o := Process s st
    let r := serve o.srv rest
    (r.1, o :: r.2)

/-- The API key the request-headers branch of `Process` extracts from the
payload `v` of its event. -/
def extractApiKey (v : Option HttpHeaders) : String :=
  findHeaderValue (HeaderMap.GetHeaders (HttpHeaders.GetHeaders v)) "x-api-key"

/-- The event kind the type switch of `Process` singles out. -/
def isRequestHeaders (req : ProcessingRequest) : Bool :=
  match req.Request with
  | some (.RequestHeaders _) => true
  | _ => false

/-- The counter of `username`, read as the program reads it. -/
def authServer.count (s : authServer) (username : String) : Nat :=
  s.userQueries.getD username 0

/-- The verdict sent when the API key does not resolve. -/
def unauthorizedResponse : ProcessingResponse :=
  denyResponse "Invalid or missing API Key." 401

/-- The verdict sent when the quota of the user is used up. -/
def quotaResponse : ProcessingResponse :=
  denyResponse "Daily quota has been reached and will reset at 4:00AM EST." 429

/-- A stream carrying one HTTP request of `username`: a request-headers event
whose API key resolves to `username` in `keys`, followed by events of other
kinds only. -/
def isRequestOf (keys : GoMap String) (username : String) (st : Stream) : Prop :=
  ∃ (v : Option HttpHeaders) (tail : List ProcessingRequest),
    st.events = ⟨some (.RequestHeaders v)⟩ :: tail ∧
    keys.get? (extractApiKey v) = some username ∧
    ∀ e ∈ tail, isRequestHeaders e = false

/-- A request-headers event whose API key resolves to `username` in `keys`. -/
def isRequestEventOf (keys : GoMap String) (username : String) (req : ProcessingRequest) :
    Prop :=
  ∃ v : Option HttpHeaders,
    req = ⟨some (.RequestHeaders v)⟩ ∧ keys.get? (extractApiKey v) = some username

/-! ## The key file, as the specification describes it -/

/-- The entry a line of the key file contributes: the trimmed fields of a line
that splits into exactly two comma-separated fields, both non-empty after
trimming. -/
def lineEntry (line : String) : Option (String × String) :=
  match strings.Split line "," with
  | [part0, part1] =>
    if strings.TrimSpace part0 ≠ "" ∧ strings.TrimSpace part1 ≠ "" then
      some (strings.TrimSpace part0, strings.TrimSpace part1)
    else none
  | _ => none

/-- A malformed line: not empty, and not splitting into exactly two
comma-separated fields. -/
def isMalformed (line : String) : Bool :=
  decide (line ≠ "") && decide ((strings.Split line ",").length ≠ 2)

/-- A line that is not empty and splits into exactly two comma-separated
fields, whatever the fields hold. -/
def splitsInTwo (line : String) : Bool :=
  decide (line ≠ "") && decide ((strings.Split line ",").length = 2)

/-- The 1-based numbers, counted from `first`, of the malformed lines. -/
def malformedLineNumbers : Nat → List String → List Nat
  | _, [] => []
  | first, line :: rest =>
    if isMalformed line then first :: malformedLineNumbers (first + 1) rest
    else malformedLineNumbers (first + 1) rest

/-- The username of the last line that splits into exactly two fields and
whose trimmed first field is `k`: the trimmed second field of that line. -/
def lastTwoFieldLine (lines : List String) (k : String) : Option String :=
  (lines.reverse.filterMap (fun line =>
      match strings.Split line "," with
      | [part0, part1] =>
        if strings.TrimSpace part0 = k then some (strings.TrimSpace part1) else none
      | _ => none)).head?

/-- The username of the last line that contributes an entry for the key `k`. -/
def lastEntryFor (lines : List String) (k : String) : Option String :=
  (lines.reverse.filterMap (fun line =>
      match lineEntry line with
      | some (key, username) => if key = k then some username else none
      | none => none)).head?

/-- The string neither starts nor ends with a white-space character. -/
def noOuterSpace (s : String) : Prop :=
  (∀ c, s.data.head? = some c → unicode.IsSpace c = false) ∧
  (∀ c, s.data.getLast? = some c → unicode.IsSpace c = false)

/-- What C15 states of an entry of the loaded mapping: key and username are
non-empty, hold no comma, and have no leading or trailing white space. -/
def cleanEntry (e : String × String) : Prop :=
  e.1 ≠ "" ∧ e.2 ≠ "" ∧ ',' ∉ e.1.data ∧ ',' ∉ e.2.data ∧
  noOuterSpace e.1 ∧ noOuterSpace e.2

/-! ## Reachable states and verdict sequences -/

/-- The server states reachable from `init` by iterations of the loop of
`Process`, each handling any event of any stream, whatever the outcome of its
send. -/
inductive Reachable (init : authServer) : authServer → Prop
  | start : Reachable init init
  | step (s : authServer) (sendErrs : List (Option GoError)) (req : ProcessingRequest) :
      Reachable init s → Reachable init (handle s sendErrs req).srv

/-- An immediate response, the deny verdict. -/
def isImmediate (m : ProcessingResponse) : Bool :=
  match m.Response with
  | some (.ImmediateResponse _) => true
  | _ => false

/-- The verdict of every event of a sequence, each handled in the server state
its predecessors left, none ending the sequence. -/
def verdicts : authServer → List ProcessingRequest → List ProcessingResponse
  | _, [] => []
  | s, req :: rest => (handle s [] req).sent ++ verdicts (handle s [] req).srv rest

/-- The server state after handling every event of a sequence in turn. -/
def stateAfter : authServer → List ProcessingRequest → authServer
  | s, [] => s
  | s, req :: rest => stateAfter (handle s [] req).srv rest

/-- The messages of a list up to and including its first immediate response. -/
def upToFirstDeny : List ProcessingResponse → List ProcessingResponse
  | [] => []
  | m :: rest => if isImmediate m then [m] else m :: upToFirstDeny rest

/-! ## Concurrent handlers

The interleaving model of `Process`: one handler per stream, each having
received a request-headers event and extracted its API key; a step of a handler
is one statement of lines 88 to 117 of `main.go`; the scheduler picks any
handler that can move. `s.mu.Lock()` can be taken only while no handler holds
the mutex. -/

/-- The program point of a handler, with its local variables. -/
inductive Conc.Pc
  /-- Line 88, about to read `s.keys[apiKey]`. -/
  | lookup (apiKey : String)
  /-- Line 91, about to send the unauthorized response. -/
  | sendUnauthorized
  /-- Line 98, about to call `s.mu.Lock()`. -/
  | lock (username : String)
  /-- Line 99, holding the mutex, about to read `s.userQueries[username]`. -/
  | read (username : String)
  /-- Line 101, holding the mutex, about to compare `currentCount`. -/
  | check (username : String) (currentCount : Nat)
  /-- Line 103, holding the mutex, about to unlock on the deny path. -/
  | unlockDeny (username : String)
  /-- Line 104, about to send the quota response. -/
  | sendDeny (username : String)
  /-- Line 111, holding the mutex, about to run `s.userQueries[username]++`. -/
  | increment (username : String)
  /-- Line 112, holding the mutex, about to read `newCount`. -/
  | readNew (username : String)
  /-- Line 113, holding the mutex, about to unlock on the allow path. -/
  | unlockAllow (username : String) (newCount : Nat)
  /-- Line 117, about to send the continue response. -/
  | sendContinue (username : String)
  /-- The verdict has been handed to `stream.Send`. -/
  | done (verdict : ProcessingResponse)
  deriving DecidableEq, Repr

/-- The shared state and the handlers: `mu` is the index of the handler holding
the mutex, if any. -/
structure Conc.State where
  keys : GoMap String
  userQueries : GoMap Nat
  mu : Option Nat
  handlers : List Conc.Pc
  deriving DecidableEq, Repr

/-- The handler `i` moves to the program point `pc`. -/
def Conc.State.goto (st : Conc.State) (i : Nat) (pc : Conc.Pc) : Conc.State :=
  { st with handlers := st.handlers.set i pc }

/-- One step of the handler `i`; `none` when there is no such handler, when it
has finished, or when it waits for the mutex. -/
def Conc.step (st : Conc.State) (i : Nat) : Option Conc.State :=
  match st.handlers[i]? with
  | none => none
  | some (.lookup apiKey) =>
    match st.keys.get? apiKey with
    | none => some (st.goto i .sendUnauthorized)
    | some username => some (st.goto i (.lock username))
  | some .sendUnauthorized => some (st.goto i (.done unauthorizedResponse))
  | some (.lock username) =>
    match st.mu with
    | none => some ({ st with mu := some i }.goto i (.read username))
    | some _ => none
  | some (.read username) =>
    some (st.goto i (.check username (st.userQueries.getD username 0)))
  | some (.check username currentCount) =>
    if currentCount ≥ maxRequestsPerUser then some (st.goto i (.unlockDeny username))
    else some (st.goto i (.increment username))
  | some (.unlockDeny username) => some ({ st with mu := none }.goto i (.sendDeny username))
  | some (.sendDeny _) => some (st.goto i (.done quotaResponse))
  | some (.increment username) =>
    some ({ st with userQueries :=
              st.userQueries.set username ((st.userQueries.getD username 0 + 1) % 2 ^ 64) }.goto
            i (.readNew username))
  | some (.readNew username) =>
    some (st.goto i (.unlockAllow username (st.userQueries.getD username 0)))
  | some (.unlockAllow username _) =>
    some ({ st with mu := none }.goto i (.sendContinue username))
  | some (.sendContinue _) => some (st.goto i (.done continueResponse))
  | some (.done _) => none

/-- The state after the handlers move in the order of the schedule; `none`
when the schedule picks a handler that cannot move. -/
def Conc.run (st : Conc.State) : List Nat → Option Conc.State
  | [] => some st
  | i :: rest =>
    match Conc.step st i with
    | none => none
    | some st1 => Conc.run st1 rest

/-- The state in which one handler per API key of the list has just extracted
its key, and nobody holds the mutex. -/
def Conc.start (keys : GoMap String) (userQueries : GoMap Nat) (apiKeys : List String) :
    Conc.State :=
  { keys := keys, userQueries := userQueries, mu := none,
    handlers := apiKeys.map Conc.Pc.lookup }

/-- The number of handlers that have handed `verdict` to `stream.Send`. -/
def Conc.State.verdictCount (st : Conc.State) (verdict : ProcessingResponse) : Nat :=
  st.handlers.countP (fun pc => decide (pc = .done verdict))

/-- The handler has sent its verdict. -/
def Conc.Pc.isDone : Conc.Pc → Bool
  | .done _ => true
  | _ => false

/-- Every handler has sent its verdict. -/
def Conc.State.finished (st : Conc.State) : Bool :=
  st.handlers.all Conc.Pc.isDone

/-- The handler is between `s.mu.Lock()` and `s.mu.Unlock()`. -/
def Conc.Pc.holdsLock : Conc.Pc → Bool
  | .read _ | .check _ _ | .unlockDeny _ | .increment _ | .readNew _ | .unlockAllow _ _ => true
  | _ => false

/-- 1 when the handler has run its increment (and so goes on to the continue
verdict), 0 otherwise. -/
def Conc.Pc.incremented : Conc.Pc → Nat
  | .readNew _ | .unlockAllow _ _ | .sendContinue _ => 1
  | .done verdict => if verdict = continueResponse then 1 else 0
  | _ => 0

/-- An upper bound on the steps the handler still takes. -/
def Conc.Pc.rank : Conc.Pc → Nat
  | .lookup _ => 8
  | .lock _ => 7
  | .read _ => 6
  | .check _ _ => 5
  | .increment _ => 4
  | .readNew _ => 3
  | .unlockAllow _ _ | .unlockDeny _ => 2
  | .sendContinue _ | .sendDeny _ | .sendUnauthorized => 1
  | .done _ => 0

/-- What holds of a handler of a request of `username` at its program point,
`count` being the current counter of `username`. -/
def Conc.Pc.ok (keys : GoMap String) (username : String) (count : Nat) : Conc.Pc → Prop
  | .lookup apiKey => keys.get? apiKey = some username
  | .sendUnauthorized => False
  | .lock u => u = username
  | .read u => u = username
  | .check u currentCount => u = username ∧ currentCount = count
  | .unlockDeny u => u = username ∧ 5 ≤ count
  | .sendDeny u => u = username ∧ 5 ≤ count
  | .increment u => u = username ∧ count < 5
  | .readNew u => u = username
  | .unlockAllow u _ => u = username
  | .sendContinue u => u = username
  | .done verdict => verdict = continueResponse ∨ (verdict = quotaResponse ∧ 5 ≤ count)

/-- The invariant of the interleaving model for handlers of requests of
`username`, whose counter was `c0` at the start. -/
structure Conc.Inv (keys : GoMap String) (username : String) (c0 : Nat) (n : Nat)
    (st : Conc.State) : Prop where
  keys_eq : st.keys = keys
  length_eq : st.handlers.length = n
  ok : ∀ pc ∈ st.handlers, pc.ok keys username (st.userQueries.getD username 0)
  holder : ∀ i pc, st.handlers[i]? = some pc → (pc.holdsLock = true ↔ st.mu = some i)
  holder_lt : ∀ i, st.mu = some i → i < st.handlers.length
  total : st.userQueries.getD username 0 = c0 + (st.handlers.map Conc.Pc.incremented).sum
  bound : st.userQueries.getD username 0 ≤ 5

/-- The response `m` is of the variant that answers events of the kind of
`req` in the external-processor protocol (request-headers response for a
request-headers event, response-body response for a response-body event, and
so on). -/
def sameKind (req : ProcessingRequest) (m : ProcessingResponse) : Bool :=
  match req.Request, m.Response with
  | some (.RequestHeaders _), some (.RequestHeaders _) => true
  | some (.ResponseHeaders _), some (.ResponseHeaders _) => true
  | some (.RequestBody _), some (.RequestBody _) => true
  | some (.ResponseBody _), some (.ResponseBody _) => true
  | some (.RequestTrailers _), some (.RequestTrailers _) => true
  | some (.ResponseTrailers _), some (.ResponseTrailers _) => true
  | _, _ => false

/-! ## Example data -/

/-- The key mapping of the example file of the specification. -/
def exampleKeys : GoMap String := [("abc123", "alice"), ("xyz789", "bob")]

/-- A request-headers event whose only header is `x-api-key` with raw value `key`. -/
def apiKeyRequest (key : String) : ProcessingRequest :=
  ⟨some (.RequestHeaders (some ⟨some ⟨[some ⟨"x-api-key", "", key⟩]⟩, false⟩))⟩

/-- A stream carrying one HTTP request with the API key `key`: the headers
event and an empty final body event, then end of input; every send succeeds. -/
def exampleStream (key : String) : Stream :=
  ⟨[apiKeyRequest key, ⟨some (.RequestBody (some ⟨"", true⟩))⟩], .EOF, []⟩

/-! ## Verification -/

/-! ### Go maps -/

theorem GoMap.get?_set_self {V : Type} (m : GoMap V) (k : String) (v : V) :
    (m.set k v).get? k = some v := by
  induction m with
  | nil => simp [GoMap.set, GoMap.get?]
  | cons e rest ih =>
    obtain ⟨k1, v1⟩ := e
    by_cases h : k1 = k
    · simp [GoMap.set, GoMap.get?, h]
    · simp [GoMap.set, GoMap.get?, h, ih]

theorem GoMap.get?_set_other {V : Type} (m : GoMap V) (k k2 : String) (v : V) (h : k2 ≠ k) :
    (m.set k v).get? k2 = m.get? k2 := by
  induction m with
  | nil => simp [GoMap.set, GoMap.get?, Ne.symm h]
  | cons e rest ih =>
    obtain ⟨k1, v1⟩ := e
    by_cases h1 : k1 = k
    · subst h1
      simp [GoMap.set, GoMap.get?, Ne.symm h]
    · simp [GoMap.set, GoMap.get?, h1, ih]

theorem GoMap.getD_set_self {V : Type} (m : GoMap V) (k : String) (v z : V) :
    (m.set k v).getD k z = v := by
  simp [GoMap.getD, GoMap.get?_set_self]

theorem GoMap.getD_set_other {V : Type} (m : GoMap V) (k k2 : String) (v z : V) (h : k2 ≠ k) :
    (m.set k v).getD k2 z = m.getD k2 z := by
  simp [GoMap.getD, GoMap.get?_set_other m k k2 v h]

/-! ### Header lookup -/

theorem findHeaderValue_append_of_no_match (before rest : List (Option HeaderValue))
    (key : String) (h : ∀ x ∈ before, HeaderValue.GetKey x ≠ key) :
    findHeaderValue (before ++ rest) key = findHeaderValue rest key := by
  induction before with
  | nil => rfl
  | cons x xs ih =>
    have hx : HeaderValue.GetKey x ≠ key := h x (List.mem_cons_self x xs)
    have hxs : ∀ y ∈ xs, HeaderValue.GetKey y ≠ key :=
      fun y hy => h y (List.mem_cons_of_mem x hy)
    simp [findHeaderValue, hx, ih hxs]

theorem findHeaderValue_of_no_match (headers : List (Option HeaderValue)) (key : String)
    (h : ∀ x ∈ headers, HeaderValue.GetKey x ≠ key) :
    findHeaderValue headers key = "" := by
  have := findHeaderValue_append_of_no_match headers [] key h
  simpa [findHeaderValue] using this

/-- C8: `findHeaderValue headers "x-api-key"` is the raw value of the first
header of the list whose name is exactly `x-api-key` (whatever follows it, and
whatever differently named headers, also ones differing only in case, precede
it), and the empty string when no header has that name. -/
theorem findHeaderValue_first_exact_match (headers : List (Option HeaderValue)) :
    (∀ (before after : List (Option HeaderValue)) (h : Option HeaderValue),
        headers = before ++ h :: after →
        (∀ x ∈ before, HeaderValue.GetKey x ≠ "x-api-key") →
        HeaderValue.GetKey h = "x-api-key" →
        findHeaderValue headers "x-api-key" = HeaderValue.GetRawValue h) ∧
    ((∀ x ∈ headers, HeaderValue.GetKey x ≠ "x-api-key") →
        findHeaderValue headers "x-api-key" = "") := by
  refine ⟨?_, findHeaderValue_of_no_match headers "x-api-key"⟩
  intro before after h hsplit hbefore hkey
  rw [hsplit, findHeaderValue_append_of_no_match before _ _ hbefore]
  simp [findHeaderValue, hkey]

/-- Witness for C8: a header named `X-API-KEY` and a nil header are passed over,
the first `x-api-key` header wins over the second; without such a header the
result is empty. -/
theorem findHeaderValue_first_exact_match_witness :
    findHeaderValue
        [some ⟨"X-API-KEY", "", "upper"⟩, none, some ⟨"x-api-key", "", "first"⟩,
         some ⟨"x-api-key", "", "second"⟩] "x-api-key" = "first" ∧
    findHeaderValue [some ⟨"X-Api-Key", "", "mixed"⟩] "x-api-key" = "" :=
  ⟨(findHeaderValue_first_exact_match _).1
      [some ⟨"X-API-KEY", "", "upper"⟩, none] [some ⟨"x-api-key", "", "second"⟩]
      (some ⟨"x-api-key", "", "first"⟩) rfl (by decide) rfl,
   (findHeaderValue_first_exact_match [some ⟨"X-Api-Key", "", "mixed"⟩]).2 (by decide)⟩

/-! ### One iteration of the loop -/

theorem Send_sent (sendErrs : List (Option GoError)) (m : ProcessingResponse) :
    (Send sendErrs m).2.2 = [m] := by
  cases sendErrs <;> rfl

theorem handle_unknown_key (s : authServer) (sendErrs : List (Option GoError))
    (v : Option HttpHeaders) (hkey : s.keys.get? (extractApiKey v) = none) :
    handle s sendErrs ⟨some (.RequestHeaders v)⟩ =
      { srv := s, sendErrs := (Send sendErrs unauthorizedResponse).2.1,
        sent := [unauthorizedResponse],
        log := ["DENY: Request with missing or invalid API key."],
        ret := some (Send sendErrs unauthorizedResponse).1 } := by
  unfold extractApiKey at hkey
  simp [handle, hkey, sendDenyResponse, Send_sent, unauthorizedResponse,
    StatusCode_Unauthorized]

theorem handle_quota_used (s : authServer) (sendErrs : List (Option GoError))
    (v : Option HttpHeaders) (username : String)
    (hkey : s.keys.get? (extractApiKey v) = some username)
    (hcount : 5 ≤ s.count username) :
    handle s sendErrs ⟨some (.RequestHeaders v)⟩ =
      { srv := s, sendErrs := (Send sendErrs quotaResponse).2.1,
        sent := [quotaResponse],
        log := ["DENY: Quota exceeded for user '" ++ username ++ "'."],
        ret := some (Send sendErrs quotaResponse).1 } := by
  unfold extractApiKey at hkey
  unfold authServer.count at hcount
  simp [handle, hkey, hcount, maxRequestsPerUser, sendDenyResponse, Send_sent, quotaResponse,
    StatusCode_TooManyRequests]

theorem handle_allowed (s : authServer) (sendErrs : List (Option GoError))
    (v : Option HttpHeaders) (username : String)
    (hkey : s.keys.get? (extractApiKey v) = some username)
    (hcount : s.count username < 5) :
    handle s sendErrs ⟨some (.RequestHeaders v)⟩ =
      { srv := { s with userQueries := s.userQueries.set username (s.count username + 1) },
        sendErrs := (Send sendErrs continueResponse).2.1,
        sent := [continueResponse],
        log := ["ALLOW: Request " ++ toString (s.count username + 1) ++ "/" ++ toString 5 ++
                " for user '" ++ username ++ "'."],
        ret := (Send sendErrs continueResponse).1.map some } := by
  unfold extractApiKey at hkey
  unfold authServer.count at hcount ⊢
  have hmod : (s.userQueries.getD username 0 + 1) % 18446744073709551616 =
      s.userQueries.getD username 0 + 1 :=
    Nat.mod_eq_of_lt (by omega)
  have hnot : ¬ 5 ≤ GoMap.getD s.userQueries username 0 := by omega
  simp [handle, hkey, hnot, maxRequestsPerUser, sendContinueResponse, Send_sent, hmod,
    GoMap.getD_set_self]

theorem handle_other_kind (s : authServer) (sendErrs : List (Option GoError))
    (req : ProcessingRequest) (hkind : isRequestHeaders req = false) :
    handle s sendErrs req =
      { srv := s, sendErrs := (Send sendErrs continueResponse).2.1,
        sent := [continueResponse], log := [],
        ret := (Send sendErrs continueResponse).1.map some } := by
  obtain ⟨r⟩ := req
  cases r with
  | none => simp [handle, sendContinueResponse, Send_sent]
  | some k =>
    cases k <;> first
      | (simp [isRequestHeaders] at hkind; done)
      | simp [handle, sendContinueResponse, Send_sent]

/-! ### The loop -/

theorem ProcessLoop_cons_ret (recvEnd : GoError) (s : authServer)
    (sendErrs : List (Option GoError)) (req : ProcessingRequest)
    (rest : List ProcessingRequest) (r : Option GoError)
    (h : (handle s sendErrs req).ret = some r) :
    ProcessLoop recvEnd s sendErrs (req :: rest) =
      { err := r, srv := (handle s sendErrs req).srv, sent := (handle s sendErrs req).sent,
        log := (handle s sendErrs req).log, unread := rest } := by
  simp [ProcessLoop, h]

theorem ProcessLoop_cons_next (recvEnd : GoError) (s : authServer)
    (sendErrs : List (Option GoError)) (req : ProcessingRequest)
    (rest : List ProcessingRequest) (h : (handle s sendErrs req).ret = none) :
    ProcessLoop recvEnd s sendErrs (req :: rest) =
      { err := (ProcessLoop recvEnd (handle s sendErrs req).srv
                  (handle s sendErrs req).sendErrs rest).err,
        srv := (ProcessLoop recvEnd (handle s sendErrs req).srv
                  (handle s sendErrs req).sendErrs rest).srv,
        sent := (handle s sendErrs req).sent ++
                (ProcessLoop recvEnd (handle s sendErrs req).srv
                  (handle s sendErrs req).sendErrs rest).sent,
        log := (handle s sendErrs req).log ++
               (ProcessLoop recvEnd (handle s sendErrs req).srv
                  (handle s sendErrs req).sendErrs rest).log,
        unread := (ProcessLoop recvEnd (handle s sendErrs req).srv
                  (handle s sendErrs req).sendErrs rest).unread } := by
  simp [ProcessLoop, h]

/-- C2: a request-headers event whose extracted `x-api-key` value is not a key
of the mapping gets, whatever the counters hold, the immediate response with
status 401 and body "Invalid or missing API Key.", and the server (so the whole
counter map) is left as it was; `Process` then returns, leaving the rest of
the stream unread. -/
theorem Process_unknown_key_unauthorized (s : authServer) (v : Option HttpHeaders)
    (rest : List ProcessingRequest) (recvEnd : GoError) (sendErrs : List (Option GoError))
    (hkey : s.keys.get? (extractApiKey v) = none) :
    (handle s sendErrs ⟨some (.RequestHeaders v)⟩).sent =
        [⟨some (.ImmediateResponse ⟨some ⟨401⟩, none, "Invalid or missing API Key."⟩)⟩] ∧
    (handle s sendErrs ⟨some (.RequestHeaders v)⟩).srv = s ∧
    (Process s ⟨⟨some (.RequestHeaders v)⟩ :: rest, recvEnd, sendErrs⟩).sent =
        [⟨some (.ImmediateResponse ⟨some ⟨401⟩, none, "Invalid or missing API Key."⟩)⟩] ∧
    (Process s ⟨⟨some (.RequestHeaders v)⟩ :: rest, recvEnd, sendErrs⟩).srv.userQueries =
        s.userQueries ∧
    (Process s ⟨⟨some (.RequestHeaders v)⟩ :: rest, recvEnd, sendErrs⟩).srv = s ∧
    (Process s ⟨⟨some (.RequestHeaders v)⟩ :: rest, recvEnd, sendErrs⟩).unread = rest := by
  have hh := handle_unknown_key s sendErrs v hkey
  have hret : (handle s sendErrs ⟨some (.RequestHeaders v)⟩).ret =
      some (Send sendErrs unauthorizedResponse).1 := by rw [hh]
  have hp := ProcessLoop_cons_ret recvEnd s sendErrs ⟨some (.RequestHeaders v)⟩ rest _ hret
  have hu : unauthorizedResponse =
      ⟨some (.ImmediateResponse ⟨some ⟨401⟩, none, "Invalid or missing API Key."⟩)⟩ := rfl
  simp only [Process, hp]
  rw [hh]
  simp [hu]

/-- Witness for C2: with the keys of the example file and `alice` already at
3 requests, the unknown key `nope` is answered 401 and the counter stays 3. -/
theorem Process_unknown_key_unauthorized_witness :
    (Process ⟨[("abc123", "alice")], [("alice", 3)]⟩
        ⟨[⟨some (.RequestHeaders (some ⟨some ⟨[some ⟨"x-api-key", "", "nope"⟩]⟩, false⟩))⟩,
          ⟨some (.RequestBody none)⟩], .EOF, []⟩).sent =
      [⟨some (.ImmediateResponse ⟨some ⟨401⟩, none, "Invalid or missing API Key."⟩)⟩] ∧
    (Process ⟨[("abc123", "alice")], [("alice", 3)]⟩
        ⟨[⟨some (.RequestHeaders (some ⟨some ⟨[some ⟨"x-api-key", "", "nope"⟩]⟩, false⟩))⟩,
          ⟨some (.RequestBody none)⟩], .EOF, []⟩).srv.userQueries = [("alice", 3)] :=
  have h := Process_unknown_key_unauthorized ⟨[("abc123", "alice")], [("alice", 3)]⟩
    (some ⟨some ⟨[some ⟨"x-api-key", "", "nope"⟩]⟩, false⟩) [⟨some (.RequestBody none)⟩]
    .EOF [] (by decide)
  ⟨h.2.2.1, h.2.2.2.1⟩

/-- C5, as stated, fails: the send of the continue verdict can fail, and then
`Process` does not go on to read the next event. On a stream with a
request-body event followed by a request of `alice`, whose first send fails,
`Process` hands the continue verdict to `Send`, returns the send error, and
leaves the request of `alice` unread (her counter is not created). -/
theorem Process_other_kind_continue_counterexample :
    isRequestHeaders ⟨some (.RequestBody none)⟩ = false ∧
    Process ⟨exampleKeys, []⟩
        ⟨[⟨some (.RequestBody none)⟩, apiKeyRequest "abc123"], .EOF,
         [some (.other "transport is closing")]⟩ =
      { err := some (.other "transport is closing"), srv := ⟨exampleKeys, []⟩,
        sent := [continueResponse], log := [], unread := [apiKeyRequest "abc123"] } :=
  ⟨rfl, by decide⟩

/-- C5, amended: an event of any kind other than request-headers gets the
continue verdict; the iteration does not depend on the key mapping (it is the
same under every other mapping), it leaves the server, so the counter map,
unchanged, and when the send of the verdict succeeds the loop goes on with the
next event: the outcome of `Process` is the verdict followed by the outcome on
the rest of the stream. -/
theorem Process_other_kind_continue (s : authServer) (req : ProcessingRequest)
    (rest : List ProcessingRequest) (recvEnd : GoError) (sendErrs : List (Option GoError))
    (hkind : isRequestHeaders req = false) :
    (handle s sendErrs req).sent = [⟨some (.RequestHeaders ⟨none⟩)⟩] ∧
    (handle s sendErrs req).srv = s ∧
    (∀ keys2 : GoMap String,
        (handle { s with keys := keys2 } sendErrs req).sent = (handle s sendErrs req).sent ∧
        (handle { s with keys := keys2 } sendErrs req).ret = (handle s sendErrs req).ret ∧
        (handle { s with keys := keys2 } sendErrs req).srv.userQueries = s.userQueries) ∧
    ((Send sendErrs continueResponse).1 = none →
        (handle s sendErrs req).ret = none ∧
        Process s ⟨req :: rest, recvEnd, sendErrs⟩ =
          { Process s ⟨rest, recvEnd, sendErrs.tail⟩ with
            sent := ⟨some (.RequestHeaders ⟨none⟩)⟩ ::
              (Process s ⟨rest, recvEnd, sendErrs.tail⟩).sent }) := by
  have hh := handle_other_kind s sendErrs req hkind
  have hc : continueResponse = ⟨some (.RequestHeaders ⟨none⟩)⟩ := rfl
  refine ⟨by rw [hh, hc], by rw [hh], ?_, ?_⟩
  · intro keys2
    rw [handle_other_kind _ sendErrs req hkind, hh]
    exact ⟨rfl, rfl, rfl⟩
  · intro hsend
    have hret : (handle s sendErrs req).ret = none := by rw [hh]; simp [hsend]
    refine ⟨hret, ?_⟩
    have htail : (Send sendErrs continueResponse).2.1 = sendErrs.tail := by
      cases sendErrs <;> rfl
    simp only [Process, ProcessLoop_cons_next recvEnd s sendErrs req rest hret]
    rw [hh]
    simp [htail]
    exact hc

/-- Witness for C5: a request-body event before a request-headers event of
`alice`: continue, then the verdict of the second event. -/
theorem Process_other_kind_continue_witness :
    isRequestHeaders ⟨some (.RequestBody none)⟩ = false ∧
    (Process ⟨[("abc123", "alice")], [("alice", 5)]⟩
        ⟨[⟨some (.RequestBody none)⟩,
          ⟨some (.RequestHeaders (some ⟨some ⟨[some ⟨"x-api-key", "", "abc123"⟩]⟩, false⟩))⟩],
         .EOF, []⟩).sent =
      [⟨some (.RequestHeaders ⟨none⟩)⟩, quotaResponse] :=
  ⟨rfl, by
    rw [((Process_other_kind_continue ⟨[("abc123", "alice")], [("alice", 5)]⟩
      ⟨some (.RequestBody none)⟩
      [⟨some (.RequestHeaders (some ⟨some ⟨[some ⟨"x-api-key", "", "abc123"⟩]⟩, false⟩))⟩]
      .EOF [] rfl).2.2.2 rfl).2]
    decide⟩

theorem handle_keys (s : authServer) (sendErrs : List (Option GoError))
    (req : ProcessingRequest) : (handle s sendErrs req).srv.keys = s.keys := by
  cases hk : isRequestHeaders req with
  | false => rw [handle_other_kind s sendErrs req hk]
  | true =>
    obtain ⟨r⟩ := req
    cases r with
    | none => simp [isRequestHeaders] at hk
    | some k =>
      cases k <;> first
        | (simp [isRequestHeaders] at hk; done)
        | skip
      rename_i v
      cases hkey : s.keys.get? (extractApiKey v) with
      | none => rw [handle_unknown_key s sendErrs v hkey]
      | some username =>
        by_cases hcount : s.count username < 5
        · rw [handle_allowed s sendErrs v username hkey hcount]
        · rw [handle_quota_used s sendErrs v username hkey (by omega)]

theorem ProcessLoop_keys (recvEnd : GoError) (s : authServer)
    (sendErrs : List (Option GoError)) (events : List ProcessingRequest) :
    (ProcessLoop recvEnd s sendErrs events).srv.keys = s.keys := by
  induction events generalizing s sendErrs with
  | nil =>
    unfold ProcessLoop
    split <;> rfl
  | cons req rest ih =>
    cases hret : (handle s sendErrs req).ret with
    | some r =>
      rw [ProcessLoop_cons_ret recvEnd s sendErrs req rest r hret]
      exact handle_keys s sendErrs req
    | none =>
      rw [ProcessLoop_cons_next recvEnd s sendErrs req rest hret]
      simp only
      rw [ih, handle_keys]

theorem ProcessLoop_other_kinds (recvEnd : GoError) (s : authServer)
    (sendErrs : List (Option GoError)) (events : List ProcessingRequest)
    (h : ∀ e ∈ events, isRequestHeaders e = false) :
    (ProcessLoop recvEnd s sendErrs events).srv = s ∧
    ∀ m ∈ (ProcessLoop recvEnd s sendErrs events).sent, m = continueResponse := by
  induction events generalizing sendErrs with
  | nil =>
    unfold ProcessLoop
    split <;> simp
  | cons req rest ih =>
    have hreq : isRequestHeaders req = false := h req (List.mem_cons_self req rest)
    have hrest : ∀ e ∈ rest, isRequestHeaders e = false :=
      fun e he => h e (List.mem_cons_of_mem req he)
    have hh := handle_other_kind s sendErrs req hreq
    cases hret : (handle s sendErrs req).ret with
    | some r =>
      rw [ProcessLoop_cons_ret recvEnd s sendErrs req rest r hret, hh]
      simp
    | none =>
      rw [ProcessLoop_cons_next recvEnd s sendErrs req rest hret, hh]
      simp only
      refine ⟨(ih _ hrest).1, ?_⟩
      intro m hm
      rcases List.mem_append.1 hm with h1 | h2
      · simpa using h1
      · exact (ih _ hrest).2 m h2

/-! ### One HTTP request per stream -/

theorem Process_request_of (s : authServer) (username : String) (st : Stream)
    (h : isRequestOf s.keys username st) :
    (s.count username < 5 →
      (Process s st).sent.head? = some continueResponse ∧
      (∀ m ∈ (Process s st).sent, m = continueResponse) ∧
      (Process s st).srv.count username = s.count username + 1) ∧
    (5 ≤ s.count username →
      (Process s st).sent = [quotaResponse] ∧ (Process s st).srv = s) := by
  obtain ⟨v, tail, hev, hkey, htail⟩ := h
  obtain ⟨events, recvEnd, sendErrs⟩ := st
  simp only at hev
  subst hev
  constructor
  · intro hcount
    have hh := handle_allowed s sendErrs v username hkey hcount
    have hcnt : authServer.count
        { s with userQueries := s.userQueries.set username (s.count username + 1) } username =
        s.count username + 1 := by
      simp [authServer.count, GoMap.getD_set_self]
    cases hret : (handle s sendErrs ⟨some (.RequestHeaders v)⟩).ret with
    | some r =>
      simp only [Process, ProcessLoop_cons_ret recvEnd s sendErrs _ tail r hret]
      rw [hh]
      simp [hcnt]
    | none =>
      simp only [Process, ProcessLoop_cons_next recvEnd s sendErrs _ tail hret]
      rw [hh]
      simp only
      have ho := ProcessLoop_other_kinds recvEnd
        { s with userQueries := s.userQueries.set username (s.count username + 1) }
        (Send sendErrs continueResponse).2.1 tail htail
      refine ⟨by simp, ?_, by rw [ho.1]; exact hcnt⟩
      intro m hm
      rcases List.mem_append.1 hm with h1 | h2
      · simpa using h1
      · exact ho.2 m h2
  · intro hcount
    have hh := handle_quota_used s sendErrs v username hkey hcount
    have hret : (handle s sendErrs ⟨some (.RequestHeaders v)⟩).ret =
        some (Send sendErrs quotaResponse).1 := by rw [hh]
    simp only [Process, ProcessLoop_cons_ret recvEnd s sendErrs _ tail _ hret]
    rw [hh]
    simp

theorem serve_length (s : authServer) (streams : List Stream) :
    (serve s streams).2.length = streams.length := by
  induction streams generalizing s with
  | nil => rfl
  | cons st rest ih => simp [serve, ih]

theorem serve_quota_from (streams : List Stream) (s : authServer) (username : String)
    (c : Nat) (hc : s.count username = c) (hc5 : c ≤ 5)
    (hst : ∀ st ∈ streams, isRequestOf s.keys username st) :
    ∀ (i : Nat) (o : Outcome), (serve s streams).2[i]? = some o →
      (c + i < 5 →
        o.sent.head? = some continueResponse ∧ (∀ m ∈ o.sent, m = continueResponse) ∧
        o.srv.count username = c + i + 1) ∧
      (5 ≤ c + i → o.sent = [quotaResponse] ∧ o.srv.count username = 5) := by
  induction streams generalizing s c with
  | nil => intro i o h; simp [serve] at h
  | cons st rest ih =>
    have hreq := Process_request_of s username st (hst st (List.mem_cons_self st rest))
    have hkeys : (Process s st).srv.keys = s.keys := ProcessLoop_keys _ _ _ _
    have hrest : ∀ st2 ∈ rest, isRequestOf (Process s st).srv.keys username st2 := by
      intro st2 h2
      rw [hkeys]
      exact hst st2 (List.mem_cons_of_mem st h2)
    intro i o hio
    cases i with
    | zero =>
      simp [serve] at hio
      subst hio
      constructor
      · intro hlt
        have := hreq.1 (by omega)
        exact ⟨this.1, this.2.1, by rw [this.2.2, hc]⟩
      · intro hge
        have := hreq.2 (by omega)
        exact ⟨this.1, by rw [this.2]; omega⟩
    | succ j =>
      simp [serve] at hio
      by_cases hlt : c < 5
      · have hc2 : (Process s st).srv.count username = c + 1 := by
          rw [(hreq.1 (by omega)).2.2, hc]
        have := ih (Process s st).srv (c + 1) hc2 (by omega) hrest j o hio
        refine ⟨fun h => ?_, fun h => this.2 (by omega)⟩
        have h3 := this.1 (by omega)
        exact ⟨h3.1, h3.2.1, by rw [h3.2.2]; omega⟩
      · have hc2 : (Process s st).srv.count username = c := by
          rw [(hreq.2 (by omega)).2, hc]
        have := ih (Process s st).srv c hc2 hc5 hrest j o hio
        exact ⟨fun h => absurd h (by omega), fun _ => this.2 (by omega)⟩

theorem verdicts_quota_from (events : List ProcessingRequest) (s : authServer)
    (username : String) (c : Nat) (hc : s.count username = c) (hc5 : c ≤ 5)
    (hev : ∀ e ∈ events, isRequestEventOf s.keys username e) :
    verdicts s events =
      List.replicate (min (5 - c) events.length) continueResponse ++
        List.replicate (events.length - (5 - c)) quotaResponse ∧
    (stateAfter s events).count username = min (c + events.length) 5 := by
  induction events generalizing s c with
  | nil => simp [verdicts, stateAfter, hc, hc5]
  | cons req rest ih =>
    obtain ⟨v, rfl, hkey⟩ := hev _ (List.mem_cons_self req rest)
    have hkeys := handle_keys s [] ⟨some (.RequestHeaders v)⟩
    have hrest : ∀ e ∈ rest,
        isRequestEventOf (handle s [] ⟨some (.RequestHeaders v)⟩).srv.keys username e := by
      intro e he
      rw [hkeys]
      exact hev e (List.mem_cons_of_mem _ he)
    simp only [verdicts, stateAfter, List.length_cons]
    by_cases hlt : c < 5
    · have hh := handle_allowed s [] v username hkey (by omega)
      have hc2 : (handle s [] ⟨some (.RequestHeaders v)⟩).srv.count username = c + 1 := by
        rw [hh]
        simp [authServer.count, GoMap.getD_set_self]
        exact hc
      obtain ⟨i1, i2⟩ := ih _ (c + 1) hc2 (by omega) hrest
      rw [i1, i2]
      have e1 : min (5 - c) (rest.length + 1) = min (5 - (c + 1)) rest.length + 1 := by omega
      have e2 : rest.length + 1 - (5 - c) = rest.length - (5 - (c + 1)) := by omega
      rw [e1, e2, List.replicate_succ, hh]
      exact ⟨rfl, by omega⟩
    · have hh := handle_quota_used s [] v username hkey (by omega)
      have hc2 : (handle s [] ⟨some (.RequestHeaders v)⟩).srv.count username = c := by
        rw [hh]
        exact hc
      obtain ⟨i1, i2⟩ := ih _ c hc2 hc5 hrest
      rw [i1, i2]
      have e0 : 5 - c = 0 := by omega
      rw [e0, hh]
      simp only [Nat.zero_min, List.replicate_zero, List.nil_append, Nat.sub_zero,
        List.replicate_succ, List.singleton_append]
      exact ⟨trivial, by omega⟩

/-- C1: starting with the counter of `username` at 0, the request-headers
events carrying a valid key of that user, handled one after another by the
loop of `Process`, get the verdicts continue (the first 5) and then the
immediate response with status 429 and body "Daily quota has been reached and
will reset at 4:00AM EST." (the 6th and every later one), and the counter
after the first i of them is i up to 5 and stays 5 from then on. In
particular, when each event comes on its own stream (followed by events of
other kinds) and `Process` is called on the streams in turn: every stream gets
an outcome; on each of the first 5 the verdict of the headers event is
continue and the counter afterwards is 1, 2, 3, 4, 5; on the 6th and every
later one the only message is the 429 response and the counter stays 5. -/
theorem serve_five_allowed_then_denied (s : authServer) (username : String)
    (h0 : s.count username = 0) :
    (∀ events : List ProcessingRequest,
      (∀ e ∈ events, isRequestEventOf s.keys username e) →
      verdicts s events =
        List.replicate (min 5 events.length) ⟨some (.RequestHeaders ⟨none⟩)⟩ ++
          List.replicate (events.length - 5)
            ⟨some (.ImmediateResponse ⟨some ⟨429⟩, none,
              "Daily quota has been reached and will reset at 4:00AM EST."⟩)⟩ ∧
      ∀ i, i ≤ events.length → (stateAfter s (events.take i)).count username = min i 5) ∧
    (∀ streams : List Stream,
      (∀ st ∈ streams, isRequestOf s.keys username st) →
      (serve s streams).2.length = streams.length ∧
      ∀ (i : Nat) (o : Outcome), (serve s streams).2[i]? = some o →
        (i < 5 →
          o.sent.head? = some ⟨some (.RequestHeaders ⟨none⟩)⟩ ∧
          (∀ m ∈ o.sent, m = ⟨some (.RequestHeaders ⟨none⟩)⟩) ∧
          o.srv.count username = i + 1) ∧
        (5 ≤ i →
          o.sent = [⟨some (.ImmediateResponse ⟨some ⟨429⟩, none,
            "Daily quota has been reached and will reset at 4:00AM EST."⟩)⟩] ∧
          o.srv.count username = 5)) := by
  constructor
  · intro events hev
    refine ⟨(verdicts_quota_from events s username 0 h0 (by omega) hev).1, ?_⟩
    intro i hi
    have hpre : ∀ e ∈ events.take i, isRequestEventOf s.keys username e :=
      fun e he => hev e (List.mem_of_mem_take he)
    have := (verdicts_quota_from (events.take i) s username 0 h0 (by omega) hpre).2
    rw [this, List.length_take]
    omega
  · intro streams hst
    refine ⟨serve_length s streams, ?_⟩
    intro i o hio
    have h := serve_quota_from streams s username 0 h0 (by omega) hst i o hio
    simp only [Nat.zero_add] at h
    exact h

/-- Witness for C1: seven requests of `alice` against the example keys; the
seventh is answered 429 with the counter at 5. -/
theorem serve_five_allowed_then_denied_witness :
    authServer.count ⟨exampleKeys, []⟩ "alice" = 0 ∧
    verdicts ⟨exampleKeys, []⟩ (List.replicate 7 (apiKeyRequest "abc123")) =
      List.replicate 5 continueResponse ++ List.replicate 2 quotaResponse ∧
    (serve ⟨exampleKeys, []⟩ (List.replicate 7 (exampleStream "abc123"))).2[6]? =
      some (Process ⟨exampleKeys, [("alice", 5)]⟩ (exampleStream "abc123")) ∧
    (Process ⟨exampleKeys, [("alice", 5)]⟩ (exampleStream "abc123")).sent =
      [⟨some (.ImmediateResponse ⟨some ⟨429⟩, none,
        "Daily quota has been reached and will reset at 4:00AM EST."⟩)⟩] ∧
    (Process ⟨exampleKeys, [("alice", 5)]⟩ (exampleStream "abc123")).srv.count "alice" = 5 :=
  ⟨rfl,
   ((serve_five_allowed_then_denied ⟨exampleKeys, []⟩ "alice" rfl).1
      (List.replicate 7 (apiKeyRequest "abc123"))
      (fun e he => by
        rw [List.eq_of_mem_replicate he]
        exact ⟨_, rfl, by decide⟩)).1,
   by decide,
   (((serve_five_allowed_then_denied ⟨exampleKeys, []⟩ "alice" rfl).2
      (List.replicate 7 (exampleStream "abc123"))
      (fun st hst => by
        rw [List.eq_of_mem_replicate hst]
        exact ⟨_, _, rfl, by decide, by decide⟩)).2 6 _ (by decide)).2 (by decide)⟩

/-! ### Loading the key file -/

theorem loadLine_empty_key_absent (st : LoadState) (line : String)
    (h : st.keys.get? "" = none) : (loadLine st line).keys.get? "" = none := by
  unfold loadLine
  simp only
  split
  · exact h
  · split
    · split
      · rename_i hne
        simp only
        rw [GoMap.get?_set_other _ _ _ _ (Ne.symm hne.1)]
        exact h
      · exact h
    · exact h

theorem foldl_loadLine_empty_key_absent (lines : List String) (st : LoadState)
    (h : st.keys.get? "" = none) : (lines.foldl loadLine st).keys.get? "" = none := by
  induction lines generalizing st with
  | nil => exact h
  | cons line rest ih => exact ih _ (loadLine_empty_key_absent st line h)

theorem newAuthServer_keys (keyFilePath : String) (opened : Except GoError KeyFile)
    (srv : authServer) (log : List String)
    (h : newAuthServer keyFilePath opened = .ok (srv, log)) :
    ∃ file, opened = .ok file ∧ file.scanErr = none ∧
      srv = ⟨(loadLines file.lines).keys, []⟩ ∧
      log = (loadLines file.lines).log ++
        ["Loaded " ++ toString (loadLines file.lines).keys.len ++ " API keys."] := by
  unfold newAuthServer at h
  cases opened with
  | error e => simp at h
  | ok file =>
    refine ⟨file, rfl, ?_⟩
    cases herr : file.scanErr with
    | some e => simp [herr] at h
    | none =>
      simp [herr] at h
      exact ⟨rfl, h.1.symm, h.2.symm⟩

/-- C3: whatever key file `newAuthServer` loaded, and whatever the counters
have become since, a request-headers event without a header named exactly
`x-api-key` is answered with the immediate response 401 "Invalid or missing
API Key.": the extracted key is the empty string, which no loaded mapping
resolves. -/
theorem Process_missing_header_unauthorized (keyFilePath : String)
    (opened : Except GoError KeyFile) (srv : authServer) (log : List String)
    (hload : newAuthServer keyFilePath opened = .ok (srv, log))
    (counters : GoMap Nat) (v : Option HttpHeaders)
    (hnone : ∀ h ∈ HeaderMap.GetHeaders (HttpHeaders.GetHeaders v),
      HeaderValue.GetKey h ≠ "x-api-key")
    (rest : List ProcessingRequest) (recvEnd : GoError) (sendErrs : List (Option GoError)) :
    extractApiKey v = "" ∧
    srv.keys.get? "" = none ∧
    (Process { srv with userQueries := counters }
        ⟨⟨some (.RequestHeaders v)⟩ :: rest, recvEnd, sendErrs⟩).sent =
      [⟨some (.ImmediateResponse ⟨some ⟨401⟩, none, "Invalid or missing API Key."⟩)⟩] ∧
    (Process { srv with userQueries := counters }
        ⟨⟨some (.RequestHeaders v)⟩ :: rest, recvEnd, sendErrs⟩).srv =
      { srv with userQueries := counters } := by
  obtain ⟨file, -, -, hsrv, -⟩ := newAuthServer_keys keyFilePath opened srv log hload
  have hkey : extractApiKey v = "" := findHeaderValue_of_no_match _ _ hnone
  have habs : srv.keys.get? "" = none := by
    rw [hsrv]
    exact foldl_loadLine_empty_key_absent file.lines _ rfl
  have hk : ({ srv with userQueries := counters } : authServer).keys.get? (extractApiKey v) =
      none := by rw [hkey]; exact habs
  have hh := handle_unknown_key { srv with userQueries := counters } sendErrs v hk
  have hret : (handle { srv with userQueries := counters } sendErrs
      ⟨some (.RequestHeaders v)⟩).ret = some (Send sendErrs unauthorizedResponse).1 := by
    rw [hh]
  refine ⟨hkey, habs, ?_, ?_⟩
  · simp only [Process, ProcessLoop_cons_ret recvEnd _ sendErrs _ rest _ hret]
    rw [hh]
    rfl
  · simp only [Process, ProcessLoop_cons_ret recvEnd _ sendErrs _ rest _ hret]
    rw [hh]

/-- Witness for C3: the example key file (with a line whose key is blank), and
a request carrying only an `X-API-KEY` header. -/
theorem Process_missing_header_unauthorized_witness :
    (Process ⟨exampleKeys, [("alice", 2)]⟩
        ⟨[⟨some (.RequestHeaders (some ⟨some ⟨[some ⟨"X-API-KEY", "", "abc123"⟩]⟩, false⟩))⟩],
         .EOF, []⟩).sent =
      [⟨some (.ImmediateResponse ⟨some ⟨401⟩, none, "Invalid or missing API Key."⟩)⟩] :=
  (Process_missing_header_unauthorized "keys.txt"
    (.ok ⟨["abc123, alice", "malformed-line", " ,carol", "xyz789,bob"], none⟩)
    ⟨exampleKeys, []⟩
    ["Warning: malformed line #2 in key file, skipping.", "Loaded 2 API keys."]
    rfl [("alice", 2)]
    (some ⟨some ⟨[some ⟨"X-API-KEY", "", "abc123"⟩]⟩, false⟩) (by decide) [] .EOF []).2.2.1

theorem loadLine_eq (st : LoadState) (line : String) :
    loadLine st line =
      { keys := match lineEntry line with
                | some (key, username) => st.keys.set key username
                | none => st.keys,
        lineNum := st.lineNum + 1,
        log := if isMalformed line then st.log ++ [malformedWarning (st.lineNum + 1)]
               else st.log } := by
  by_cases hline : line = ""
  · subst hline
    have h1 : lineEntry "" = none := by decide
    have h2 : isMalformed "" = false := by decide
    simp [loadLine, h1, h2]
  · rcases hsp : strings.Split line "," with _ | ⟨a, _ | ⟨b, _ | ⟨c, r⟩⟩⟩
    · simp [loadLine, lineEntry, isMalformed, hsp, hline]
    · simp [loadLine, lineEntry, isMalformed, hsp, hline]
    · by_cases hf : strings.TrimSpace a ≠ "" ∧ strings.TrimSpace b ≠ ""
      · simp [loadLine, lineEntry, isMalformed, hsp, hline, hf]
      · simp [loadLine, lineEntry, isMalformed, hsp, hline, hf]
    · simp [loadLine, lineEntry, isMalformed, hsp, hline]

theorem loadLines_snoc (lines : List String) (line : String) :
    loadLines (lines ++ [line]) = loadLine (loadLines lines) line := by
  simp [loadLines, List.foldl_append]

theorem loadLines_get? (lines : List String) (k : String) :
    (loadLines lines).keys.get? k = lastEntryFor lines k := by
  induction lines using List.reverseRecOn with
  | nil => rfl
  | append_singleton init line ih =>
    rw [loadLines_snoc, loadLine_eq]
    simp only [lastEntryFor, List.reverse_append, List.reverse_singleton, List.singleton_append,
      List.filterMap_cons]
    cases hent : lineEntry line with
    | none =>
      simp only
      rw [ih]
      rfl
    | some e =>
      obtain ⟨key, username⟩ := e
      simp only
      by_cases hk : key = k
      · subst hk
        simp [GoMap.get?_set_self]
      · rw [GoMap.get?_set_other _ _ _ _ (Ne.symm hk), ih]
        simp [hk, lastEntryFor]

theorem newAuthServer_ok (keyFilePath : String) (lines : List String) :
    newAuthServer keyFilePath (.ok ⟨lines, none⟩) =
      .ok (⟨(loadLines lines).keys, []⟩,
           (loadLines lines).log ++
             ["Loaded " ++ toString (loadLines lines).keys.len ++ " API keys."]) := rfl

/-- C6, as stated, fails: in the file with the lines `k,alice` and `k,` the
last line that splits into exactly two fields with trimmed first field `k` is
the second one, whose trimmed second field is empty, yet looking up `k` in the
loaded mapping returns `alice`. -/
theorem newAuthServer_last_two_field_line_counterexample :
    newAuthServer "keys.txt" (.ok ⟨["k,alice", "k,"], none⟩) =
      .ok (⟨[("k", "alice")], []⟩, ["Loaded 1 API keys."]) ∧
    GoMap.get? [("k", "alice")] "k" = some "alice" ∧
    lastTwoFieldLine ["k,alice", "k,"] "k" = some "" ∧
    GoMap.get? [("k", "alice")] "k" ≠ lastTwoFieldLine ["k,alice", "k,"] "k" :=
  ⟨rfl, by decide, by decide, by decide⟩

/-- C6, amended: after `newAuthServer` loads the lines, looking up `k` returns
the trimmed second field of the last line that splits into exactly two
comma-separated fields, both non-empty after trimming, and whose trimmed first
field equals `k` (a later such line overwrites an earlier one, no case
normalization), and is absent when there is no such line. -/
theorem newAuthServer_lookup_last_entry (keyFilePath : String) (lines : List String)
    (k : String) :
    ∃ (srv : authServer) (log : List String),
      newAuthServer keyFilePath (.ok ⟨lines, none⟩) = .ok (srv, log) ∧
      srv.keys.get? k = lastEntryFor lines k :=
  ⟨_, _, newAuthServer_ok keyFilePath lines, loadLines_get? lines k⟩

/-- An instance of the amended C6: a duplicate key, a line with an empty
username and a key differing in case. -/
theorem newAuthServer_lookup_last_entry_witness :
    lastEntryFor ["abc, alice", "ABC,carol", "abc ,bob", "abc,"] "abc" = some "bob" ∧
    ∃ (srv : authServer) (log : List String),
      newAuthServer "keys.txt" (.ok ⟨["abc, alice", "ABC,carol", "abc ,bob", "abc,"], none⟩) =
        .ok (srv, log) ∧
      srv.keys.get? "abc" = lastEntryFor ["abc, alice", "ABC,carol", "abc ,bob", "abc,"] "abc" :=
  ⟨by decide, newAuthServer_lookup_last_entry "keys.txt" _ "abc"⟩

theorem GoMap.set_of_absent {V : Type} (m : GoMap V) (k : String) (v : V)
    (h : k ∉ m.map Prod.fst) : m.set k v = m ++ [(k, v)] := by
  induction m with
  | nil => rfl
  | cons e rest ih =>
    obtain ⟨k1, v1⟩ := e
    simp only [List.map_cons, List.mem_cons, not_or] at h
    simp [GoMap.set, Ne.symm h.1, ih h.2]

theorem foldl_loadLine_keys (lines : List String) (st : LoadState)
    (h : ((st.keys ++ lines.filterMap lineEntry).map Prod.fst).Nodup) :
    (lines.foldl loadLine st).keys = st.keys ++ lines.filterMap lineEntry := by
  induction lines generalizing st with
  | nil => simp
  | cons line rest ih =>
    simp only [List.foldl_cons]
    cases hent : lineEntry line with
    | none =>
      have hk : (loadLine st line).keys = st.keys := by rw [loadLine_eq]; simp [hent]
      simp only [List.filterMap_cons, hent] at h ⊢
      rw [ih _ (by rw [hk]; exact h), hk]
    | some e =>
      obtain ⟨key, username⟩ := e
      simp only [List.filterMap_cons, hent] at h ⊢
      have habs : key ∉ st.keys.map Prod.fst := by
        intro hmem
        rw [List.map_append, List.map_cons] at h
        have := (List.nodup_append.1 h).2.2
        exact this hmem (List.mem_cons_self _ _)
      have hk : (loadLine st line).keys = st.keys ++ [(key, username)] := by
        rw [loadLine_eq]
        simp only [hent]
        exact GoMap.set_of_absent _ _ _ habs
      rw [ih _ (by rw [hk]; simpa using h), hk]
      simp

theorem foldl_loadLine_log (lines : List String) (st : LoadState) :
    (lines.foldl loadLine st).log =
      st.log ++ (malformedLineNumbers (st.lineNum + 1) lines).map malformedWarning := by
  induction lines generalizing st with
  | nil => simp [malformedLineNumbers]
  | cons line rest ih =>
    simp only [List.foldl_cons]
    rw [ih, loadLine_eq]
    by_cases hm : isMalformed line = true
    · simp [malformedLineNumbers, hm]
    · simp [malformedLineNumbers, hm]

theorem malformedLineNumbers_length (first : Nat) (lines : List String) :
    (malformedLineNumbers first lines).length = (lines.filter isMalformed).length := by
  induction lines generalizing first with
  | nil => rfl
  | cons line rest ih =>
    by_cases hm : isMalformed line = true
    · simp [malformedLineNumbers, hm, ih]
    · simp [malformedLineNumbers, hm, ih]

theorem mem_malformedLineNumbers (first : Nat) (lines : List String) (n : Nat) :
    n ∈ malformedLineNumbers first lines ↔
      first ≤ n ∧ ∃ line, lines[n - first]? = some line ∧ isMalformed line = true := by
  induction lines generalizing first with
  | nil => simp [malformedLineNumbers]
  | cons line rest ih =>
    have hidx : n ≠ first → first ≤ n → (line :: rest)[n - first]? = rest[n - (first + 1)]? := by
      intro h1 h2
      have : n - first = (n - (first + 1)) + 1 := by omega
      rw [this, List.getElem?_cons_succ]
    by_cases hn : n = first
    · subst hn
      by_cases hm : isMalformed line = true
      · simp [malformedLineNumbers, hm]
      · simp [malformedLineNumbers, hm, ih]
    · have hunfold : n ∈ malformedLineNumbers first (line :: rest) ↔
          n ∈ malformedLineNumbers (first + 1) rest := by
        by_cases hm : isMalformed line = true
        · simp [malformedLineNumbers, hm, hn]
        · simp [malformedLineNumbers, hm]
      rw [hunfold, ih]
      constructor
      · rintro ⟨h1, l, h2, h3⟩
        exact ⟨by omega, l, by rw [hidx hn (by omega)]; exact h2, h3⟩
      · rintro ⟨h1, l, h2, h3⟩
        exact ⟨by omega, l, by rw [← hidx hn h1]; exact h2, h3⟩

theorem length_filterMap_lineEntry (lines : List String) :
    (lines.filterMap lineEntry).length =
      (lines.filter (fun line => (lineEntry line).isSome)).length := by
  induction lines with
  | nil => rfl
  | cons line rest ih =>
    cases hent : lineEntry line with
    | none => simp [List.filterMap_cons, hent, ih]
    | some e => simp [List.filterMap_cons, hent, ih]

/-- C7, as stated, fails, in three ways. In the file with the lines
`abc123, alice` and `xyz789,` both lines are non-blank and split into exactly
two comma-separated fields, with distinct keys, and no line is malformed
(N = 2, M = 0), yet the loaded mapping has one entry. In the file whose only
line is a single space, a blank line, the loader logs a warning for line 1.
And for a file whose scan ends in an error (a line too long for the scanner
after the line `abc123, alice`), `newAuthServer` does not succeed. -/
theorem newAuthServer_entry_count_counterexample :
    ((["abc123, alice", "xyz789,"].filter splitsInTwo).length = 2 ∧
     (["abc123, alice", "xyz789,"].filter isMalformed).length = 0 ∧
     newAuthServer "keys.txt" (.ok ⟨["abc123, alice", "xyz789,"], none⟩) =
       .ok (⟨[("abc123", "alice")], []⟩, ["Loaded 1 API keys."]) ∧
     GoMap.len [("abc123", "alice")] ≠ 2) ∧
    (strings.TrimSpace " " = "" ∧
     newAuthServer "keys.txt" (.ok ⟨[" "], none⟩) =
       .ok (⟨[], []⟩,
            ["Warning: malformed line #1 in key file, skipping.", "Loaded 0 API keys."])) ∧
    newAuthServer "keys.txt"
        (.ok ⟨["abc123, alice"], some (.other "bufio.Scanner: token too long")⟩) =
      .error (.readFailed (.other "bufio.Scanner: token too long")) :=
  ⟨⟨by decide, by decide, rfl, by decide⟩, ⟨by decide, rfl⟩, rfl⟩

/-- C7, amended: for a key file that is opened and scanned without error, and
whose lines that split into exactly two comma-separated fields, both non-empty
after trimming, have pairwise distinct trimmed keys, `newAuthServer` succeeds;
the mapping holds exactly the entries of those N lines, and the log holds
exactly one warning per malformed line (not empty, and not splitting into
exactly two fields; a line of white space only is one), M in all, each naming
the 1-based number of its line in the file (empty lines counted), followed by
the line reporting N loaded keys. Empty lines, and lines with two fields of
which one is empty after trimming, give neither entry nor warning. -/
theorem newAuthServer_entries_and_warnings (keyFilePath : String) (lines : List String)
    (hdistinct : ((lines.filterMap lineEntry).map Prod.fst).Nodup) :
    newAuthServer keyFilePath (.ok ⟨lines, none⟩) =
      .ok (⟨lines.filterMap lineEntry, []⟩,
           (malformedLineNumbers 1 lines).map malformedWarning ++
             ["Loaded " ++ toString (lines.filterMap lineEntry).length ++ " API keys."]) ∧
    GoMap.len (lines.filterMap lineEntry) =
      (lines.filter (fun line => (lineEntry line).isSome)).length ∧
    ((malformedLineNumbers 1 lines).map malformedWarning).length =
      (lines.filter isMalformed).length ∧
    ∀ n, n ∈ malformedLineNumbers 1 lines ↔
      1 ≤ n ∧ ∃ line, lines[n - 1]? = some line ∧ isMalformed line = true := by
  have hkeys : (loadLines lines).keys = lines.filterMap lineEntry := by
    have := foldl_loadLine_keys lines { keys := [], lineNum := 0, log := [] }
      (by simpa using hdistinct)
    simpa [loadLines] using this
  have hlog : (loadLines lines).log = (malformedLineNumbers 1 lines).map malformedWarning := by
    have := foldl_loadLine_log lines { keys := [], lineNum := 0, log := [] }
    simpa [loadLines] using this
  refine ⟨?_, length_filterMap_lineEntry lines, ?_, mem_malformedLineNumbers 1 lines⟩
  · rw [newAuthServer_ok, hkeys, hlog]
    rfl
  · rw [List.length_map, malformedLineNumbers_length]

/-- Witness for C7: the example file of the specification loads as the mapping
of `abc123` to `alice` and `xyz789` to `bob`, with one warning, for line 2; and
in a file with an empty line, a line of white space and a line without
username, only the line of white space, line 2, gets a warning. -/
theorem newAuthServer_entries_and_warnings_witness :
    newAuthServer "keys.txt" (.ok ⟨["abc123, alice", "malformed-line", "xyz789,bob"], none⟩) =
      .ok (⟨[("abc123", "alice"), ("xyz789", "bob")], []⟩,
           ["Warning: malformed line #2 in key file, skipping.", "Loaded 2 API keys."]) ∧
    newAuthServer "keys.txt" (.ok ⟨["", " ", "xyz789,", "abc123, alice"], none⟩) =
      .ok (⟨[("abc123", "alice")], []⟩,
           ["Warning: malformed line #2 in key file, skipping.", "Loaded 1 API keys."]) :=
  ⟨(newAuthServer_entries_and_warnings "keys.txt"
      ["abc123, alice", "malformed-line", "xyz789,bob"] (by decide)).1,
   (newAuthServer_entries_and_warnings "keys.txt"
      ["", " ", "xyz789,", "abc123, alice"] (by decide)).1⟩

/-! ### The quota invariant -/

theorem handle_srv_cases (s : authServer) (sendErrs : List (Option GoError))
    (req : ProcessingRequest) :
    (handle s sendErrs req).srv = s ∨
    ∃ username, s.count username < 5 ∧
      (handle s sendErrs req).srv =
        { s with userQueries := s.userQueries.set username (s.count username + 1) } := by
  cases hk : isRequestHeaders req with
  | false => left; rw [handle_other_kind s sendErrs req hk]
  | true =>
    obtain ⟨r⟩ := req
    cases r with
    | none => simp [isRequestHeaders] at hk
    | some k =>
      cases k <;> first
        | (simp [isRequestHeaders] at hk; done)
        | skip
      rename_i v
      cases hkey : s.keys.get? (extractApiKey v) with
      | none => left; rw [handle_unknown_key s sendErrs v hkey]
      | some username =>
        by_cases hcount : s.count username < 5
        · right
          exact ⟨username, hcount, by rw [handle_allowed s sendErrs v username hkey hcount]⟩
        · left; rw [handle_quota_used s sendErrs v username hkey (by omega)]

theorem handle_count_le (s : authServer) (sendErrs : List (Option GoError))
    (req : ProcessingRequest) (h : ∀ u, s.count u ≤ 5) :
    ∀ u, (handle s sendErrs req).srv.count u ≤ 5 := by
  intro u
  rcases handle_srv_cases s sendErrs req with h1 | ⟨username, hlt, h2⟩
  · rw [h1]; exact h u
  · rw [h2]
    by_cases hu : u = username
    · subst hu
      simp only [authServer.count, GoMap.getD_set_self]
      unfold authServer.count at hlt
      omega
    · simp only [authServer.count, GoMap.getD_set_other _ _ _ _ _ hu]
      exact h u

theorem Reachable.count_le {init s : authServer} (hinit : ∀ u, init.count u ≤ 5)
    (h : Reachable init s) : ∀ u, s.count u ≤ 5 := by
  induction h with
  | start => exact hinit
  | step s sendErrs req _ ih => exact handle_count_le s sendErrs req ih

theorem Reachable.trans_step {init s : authServer} (h : Reachable init s)
    (recvEnd : GoError) (sendErrs : List (Option GoError)) (events : List ProcessingRequest) :
    Reachable init (ProcessLoop recvEnd s sendErrs events).srv := by
  induction events generalizing s sendErrs with
  | nil =>
    unfold ProcessLoop
    split <;> exact h
  | cons req rest ih =>
    cases hret : (handle s sendErrs req).ret with
    | some r =>
      rw [ProcessLoop_cons_ret recvEnd s sendErrs req rest r hret]
      exact Reachable.step s sendErrs req h
    | none =>
      rw [ProcessLoop_cons_next recvEnd s sendErrs req rest hret]
      exact ih (Reachable.step s sendErrs req h) _

theorem Reachable.serve_outcomes {init s : authServer} (h : Reachable init s) (streams : List Stream) :
    Reachable init (serve s streams).1 ∧ ∀ o ∈ (serve s streams).2, Reachable init o.srv := by
  induction streams generalizing s with
  | nil => exact ⟨h, by simp [AuthExtProc.serve]⟩
  | cons st rest ih =>
    have h1 : Reachable init (Process s st).srv := Reachable.trans_step h _ _ _
    refine ⟨(ih h1).1, ?_⟩
    intro o ho
    simp only [AuthExtProc.serve, List.mem_cons] at ho
    rcases ho with rfl | ho
    · exact h1
    · exact (ih h1).2 o ho

/-- C9: in every state reachable from the server `newAuthServer` constructs
(empty counter map) by loop iterations of `Process` on any events of any
streams, and so after any sequence of calls of `Process` and in the outcome of
each of them, the counter of every username is at most 5. -/
theorem reachable_count_le_five (keyFilePath : String) (opened : Except GoError KeyFile)
    (srv : authServer) (log : List String)
    (hload : newAuthServer keyFilePath opened = .ok (srv, log)) :
    srv.userQueries = [] ∧
    (∀ s, Reachable srv s → ∀ u, s.count u ≤ 5) ∧
    (∀ (streams : List Stream) (u : String),
      (serve srv streams).1.count u ≤ 5 ∧ ∀ o ∈ (serve srv streams).2, o.srv.count u ≤ 5) := by
  obtain ⟨file, -, -, hsrv, -⟩ := newAuthServer_keys keyFilePath opened srv log hload
  have hq : srv.userQueries = [] := by rw [hsrv]
  have hinit : ∀ u, srv.count u ≤ 5 := by
    intro u
    simp [authServer.count, hq, GoMap.getD, GoMap.get?]
  refine ⟨hq, fun s hs => Reachable.count_le hinit hs, ?_⟩
  intro streams u
  have hr := Reachable.serve_outcomes (Reachable.start : Reachable srv srv) streams
  exact ⟨Reachable.count_le hinit hr.1 u, fun o ho => Reachable.count_le hinit (hr.2 o ho) u⟩

/-- Witness for C9: after seven requests of `alice` and two of `bob` against
the server loaded from the example file, the counter of `alice` is at most 5. -/
theorem reachable_count_le_five_witness :
    (serve ⟨exampleKeys, []⟩
      (List.replicate 7 (exampleStream "abc123") ++
        List.replicate 2 (exampleStream "xyz789"))).1.count "alice" ≤ 5 :=
  ((reachable_count_le_five "keys.txt"
    (.ok ⟨["abc123, alice", "malformed-line", "xyz789,bob"], none⟩) ⟨exampleKeys, []⟩
    ["Warning: malformed line #2 in key file, skipping.", "Loaded 2 API keys."] rfl).2.2
    (List.replicate 7 (exampleStream "abc123") ++ List.replicate 2 (exampleStream "xyz789"))
    "alice").1

/-! ### Deny ends the stream -/

theorem Send_ok (sendErrs : List (Option GoError)) (m : ProcessingResponse)
    (h : ∀ e ∈ sendErrs, e = none) :
    (Send sendErrs m).1 = none ∧ ∀ e ∈ (Send sendErrs m).2.1, e = none := by
  cases sendErrs with
  | nil => simp [Send]
  | cons r rest =>
    refine ⟨h r (List.mem_cons_self r rest), ?_⟩
    intro e he
    exact h e (List.mem_cons_of_mem r he)

theorem handle_send_ok (s : authServer) (sendErrs : List (Option GoError))
    (req : ProcessingRequest) (h : ∀ e ∈ sendErrs, e = none) :
    (handle s sendErrs req).srv = (handle s [] req).srv ∧
    (handle s sendErrs req).sent = (handle s [] req).sent ∧
    (∀ e ∈ (handle s sendErrs req).sendErrs, e = none) ∧
    (((handle s sendErrs req).sent = [continueResponse] ∧ (handle s sendErrs req).ret = none) ∨
     (((handle s sendErrs req).sent = [unauthorizedResponse] ∨
        (handle s sendErrs req).sent = [quotaResponse]) ∧
      (handle s sendErrs req).ret = some none ∧ (handle s sendErrs req).srv = s)) := by
  cases hk : isRequestHeaders req with
  | false =>
    rw [handle_other_kind s sendErrs req hk, handle_other_kind s [] req hk]
    have := Send_ok sendErrs continueResponse h
    exact ⟨rfl, rfl, this.2, Or.inl ⟨rfl, by simp [this.1]⟩⟩
  | true =>
    obtain ⟨r⟩ := req
    cases r with
    | none => simp [isRequestHeaders] at hk
    | some k =>
      cases k <;> first
        | (simp [isRequestHeaders] at hk; done)
        | skip
      rename_i v
      cases hkey : s.keys.get? (extractApiKey v) with
      | none =>
        rw [handle_unknown_key s sendErrs v hkey, handle_unknown_key s [] v hkey]
        have := Send_ok sendErrs unauthorizedResponse h
        exact ⟨rfl, rfl, this.2, Or.inr ⟨Or.inl rfl, by simp [this.1], rfl⟩⟩
      | some username =>
        by_cases hcount : s.count username < 5
        · rw [handle_allowed s sendErrs v username hkey hcount,
            handle_allowed s [] v username hkey hcount]
          have := Send_ok sendErrs continueResponse h
          exact ⟨rfl, rfl, this.2, Or.inl ⟨rfl, by simp [this.1]⟩⟩
        · rw [handle_quota_used s sendErrs v username hkey (by omega),
            handle_quota_used s [] v username hkey (by omega)]
          have := Send_ok sendErrs quotaResponse h
          exact ⟨rfl, rfl, this.2, Or.inr ⟨Or.inr rfl, by simp [this.1], rfl⟩⟩

theorem ProcessLoop_send_ok (recvEnd : GoError) (events : List ProcessingRequest) :
    ∀ (s : authServer) (sendErrs : List (Option GoError)), (∀ e ∈ sendErrs, e = none) →
      (ProcessLoop recvEnd s sendErrs events).sent = upToFirstDeny (verdicts s events) ∧
      (ProcessLoop recvEnd s sendErrs events).unread =
        events.drop (ProcessLoop recvEnd s sendErrs events).sent.length ∧
      (ProcessLoop recvEnd s sendErrs events).sent.length ≤ events.length ∧
      (∀ m ∈ (ProcessLoop recvEnd s sendErrs events).sent.dropLast, m = continueResponse) ∧
      (∀ m, (ProcessLoop recvEnd s sendErrs events).sent.getLast? = some m →
        isImmediate m = true →
        (ProcessLoop recvEnd s sendErrs events).err = none ∧
        (m = unauthorizedResponse ∨ m = quotaResponse)) ∧
      (ProcessLoop recvEnd s sendErrs events).srv =
        stateAfter s (events.take (ProcessLoop recvEnd s sendErrs events).sent.length) ∧
      ((∀ m ∈ (ProcessLoop recvEnd s sendErrs events).sent, isImmediate m = false) →
        (ProcessLoop recvEnd s sendErrs events).sent =
          List.replicate events.length continueResponse ∧
        (ProcessLoop recvEnd s sendErrs events).unread = []) := by
  induction events with
  | nil =>
    intro s sendErrs _
    unfold ProcessLoop
    split <;> simp [verdicts, upToFirstDeny, stateAfter]
  | cons req rest ih =>
    intro s sendErrs hse
    obtain ⟨hsrv, hsent, hse2, hcase⟩ := handle_send_ok s sendErrs req hse
    rcases hcase with ⟨hs, hr⟩ | ⟨hs, hr, hsame⟩
    · obtain ⟨i1, i2, i3, i4, i5, i6, i7⟩ :=
        ih (handle s sendErrs req).srv (handle s sendErrs req).sendErrs hse2
      rw [ProcessLoop_cons_next recvEnd s sendErrs req rest hr]
      simp only [hs, List.singleton_append, List.length_cons, List.drop_succ_cons,
        List.take_succ_cons]
      have hv : verdicts s (req :: rest) =
          continueResponse :: verdicts (handle s sendErrs req).srv rest := by
        simp only [verdicts]
        rw [← hsent, ← hsrv, hs]
        rfl
      have hni : isImmediate continueResponse = false := rfl
      refine ⟨?_, i2, by omega, ?_, ?_, ?_, ?_⟩
      · rw [hv, i1]
        simp [upToFirstDeny, hni]
      · intro m hm
        cases hl : (ProcessLoop recvEnd (handle s sendErrs req).srv
            (handle s sendErrs req).sendErrs rest).sent with
        | nil => rw [hl] at hm; simp at hm
        | cons b l =>
          rw [hl, List.dropLast_cons₂, List.mem_cons] at hm
          rcases hm with rfl | hm
          · rfl
          · exact i4 m (by rw [hl]; exact hm)
      · intro m hm him
        cases hl : (ProcessLoop recvEnd (handle s sendErrs req).srv
            (handle s sendErrs req).sendErrs rest).sent with
        | nil =>
          rw [hl] at hm
          simp at hm
          subst hm
          simp [hni] at him
        | cons b l =>
          rw [hl, List.getLast?_cons_cons] at hm
          exact i5 m (by rw [hl]; exact hm) him
      · rw [i6]
        simp only [stateAfter, hsrv]
      · intro hall
        have h2 := i7 (fun m hm => hall m (List.mem_cons_of_mem _ hm))
        rw [h2.1]
        exact ⟨by simp [List.replicate_succ], h2.2⟩
    · rw [ProcessLoop_cons_ret recvEnd s sendErrs req rest none hr]
      have hm : ∃ m, (handle s sendErrs req).sent = [m] ∧ isImmediate m = true ∧
          (m = unauthorizedResponse ∨ m = quotaResponse) := by
        rcases hs with h1 | h1
        · exact ⟨_, h1, rfl, Or.inl rfl⟩
        · exact ⟨_, h1, rfl, Or.inr rfl⟩
      obtain ⟨m, hm1, hm2, hm3⟩ := hm
      have hv : verdicts s (req :: rest) = m :: verdicts (handle s sendErrs req).srv rest := by
        simp only [verdicts]
        rw [← hsent, ← hsrv, hm1]
        rfl
      simp only [hm1, List.length_singleton, List.drop_succ_cons, List.drop_zero,
        List.take_succ_cons, List.take_zero]
      refine ⟨?_, trivial, by simp, by simp, ?_, ?_, ?_⟩
      · rw [hv]
        simp [upToFirstDeny, hm2]
      · intro m2 h2 _
        simp at h2
        subst h2
        exact ⟨trivial, hm3⟩
      · simp only [stateAfter, hsrv]
      · intro hall
        have := hall m (List.mem_singleton_self m)
        rw [hm2] at this
        exact absurd this (by decide)

/-- C10: on a stream whose sends all succeed, `Process` answers the events in
order, one verdict each, up to and including the first event that gets an
immediate response, and returns there: the messages sent are the verdicts of
the events cut after the first immediate response; the events left unread are
exactly those after the answered ones; every message but the last is a continue
verdict, so an immediate response occurs at most once and last, and with it
`Process` returns nil; the server afterwards is the one the answered events
left, so the unread events change no counter; and when no event is denied the
output is one continue verdict per event and nothing is left unread. -/
theorem Process_stops_at_first_deny (s : authServer) (events : List ProcessingRequest)
    (recvEnd : GoError) (sendErrs : List (Option GoError))
    (hsend : ∀ e ∈ sendErrs, e = none) :
    (Process s ⟨events, recvEnd, sendErrs⟩).sent = upToFirstDeny (verdicts s events) ∧
    (Process s ⟨events, recvEnd, sendErrs⟩).unread =
      events.drop (Process s ⟨events, recvEnd, sendErrs⟩).sent.length ∧
    (Process s ⟨events, recvEnd, sendErrs⟩).sent.length ≤ events.length ∧
    (∀ m ∈ (Process s ⟨events, recvEnd, sendErrs⟩).sent.dropLast, m = continueResponse) ∧
    (∀ m, (Process s ⟨events, recvEnd, sendErrs⟩).sent.getLast? = some m →
      isImmediate m = true →
      (Process s ⟨events, recvEnd, sendErrs⟩).err = none ∧
      (m = unauthorizedResponse ∨ m = quotaResponse)) ∧
    (Process s ⟨events, recvEnd, sendErrs⟩).srv =
      stateAfter s (events.take (Process s ⟨events, recvEnd, sendErrs⟩).sent.length) ∧
    ((∀ m ∈ (Process s ⟨events, recvEnd, sendErrs⟩).sent, isImmediate m = false) →
      (Process s ⟨events, recvEnd, sendErrs⟩).sent =
        List.replicate events.length continueResponse ∧
      (Process s ⟨events, recvEnd, sendErrs⟩).unread = []) :=
  ProcessLoop_send_ok recvEnd events s sendErrs hsend

/-- Witness for C10: a body event, a request with an unknown key, then a
request of `alice`: continue, 401, and the request of `alice` is never read,
so her counter is not created. -/
theorem Process_stops_at_first_deny_witness :
    (Process ⟨exampleKeys, []⟩
        ⟨[⟨some (.RequestBody none)⟩, apiKeyRequest "nope", apiKeyRequest "abc123"],
         .EOF, [none, none]⟩).sent = [continueResponse, unauthorizedResponse] ∧
    (Process ⟨exampleKeys, []⟩
        ⟨[⟨some (.RequestBody none)⟩, apiKeyRequest "nope", apiKeyRequest "abc123"],
         .EOF, [none, none]⟩).unread = [apiKeyRequest "abc123"] ∧
    (Process ⟨exampleKeys, []⟩
        ⟨[⟨some (.RequestBody none)⟩, apiKeyRequest "nope", apiKeyRequest "abc123"],
         .EOF, [none, none]⟩).srv = ⟨exampleKeys, []⟩ := by
  have h := Process_stops_at_first_deny ⟨exampleKeys, []⟩
    [⟨some (.RequestBody none)⟩, apiKeyRequest "nope", apiKeyRequest "abc123"]
    .EOF [none, none] (by decide)
  have hsent : upToFirstDeny (verdicts ⟨exampleKeys, []⟩
      [⟨some (.RequestBody none)⟩, apiKeyRequest "nope", apiKeyRequest "abc123"]) =
      [continueResponse, unauthorizedResponse] := by decide
  refine ⟨h.1.trans hsent, ?_, ?_⟩
  · rw [h.2.1, h.1, hsent]
    rfl
  · rw [h.2.2.2.2.2.1, h.1, hsent]
    decide

/-! ### Concurrent handlers -/

theorem sum_map_set {α : Type} (f : α → Nat) (l : List α) (i : Nat) (a x : α)
    (h : l[i]? = some a) : ((l.set i x).map f).sum + f a = (l.map f).sum + f x := by
  induction l generalizing i with
  | nil => simp at h
  | cons b rest ih =>
    cases i with
    | zero =>
      simp at h
      subst h
      simp [List.set]
      omega
    | succ j =>
      simp at h
      have := ih j h
      simp only [List.set, List.map_cons, List.sum_cons]
      omega

theorem getElem?_set_of {α : Type} (l : List α) (i j : Nat) (a x : α) (h : l[i]? = some a) :
    (l.set i x)[j]? = if j = i then some x else l[j]? := by
  have hlt : i < l.length := (List.getElem?_eq_some.1 h).1
  rw [List.getElem?_set]
  by_cases hij : i = j
  · subst hij; simp [hlt]
  · simp [hij, Ne.symm hij]

theorem Conc.Pc.ok_mono (keys : GoMap String) (username : String) (c c2 : Nat)
    (pc : Conc.Pc) (hlock : pc.holdsLock = false) (hle : c ≤ c2)
    (h : pc.ok keys username c) : pc.ok keys username c2 := by
  cases pc <;> simp_all [Conc.Pc.ok, Conc.Pc.holdsLock]
  · omega
  · rcases h with h | h
    · exact Or.inl h
    · exact Or.inr ⟨h.1, by omega⟩

theorem Conc.Inv.update {keys : GoMap String} {username : String} {c0 n : Nat}
    {st : Conc.State} (hinv : Conc.Inv keys username c0 n st) (j : Nat) (pc pc2 : Conc.Pc)
    (hj : st.handlers[j]? = some pc) (q2 : GoMap Nat) (m2 : Option Nat)
    (hok : pc2.ok keys username (q2.getD username 0))
    (hcount : q2 = st.userQueries ∨
      (pc.holdsLock = true ∧ st.userQueries.getD username 0 ≤ q2.getD username 0))
    (hinc : q2.getD username 0 + pc.incremented =
      st.userQueries.getD username 0 + pc2.incremented)
    (hmu : (m2 = st.mu ∧ pc2.holdsLock = pc.holdsLock) ∨
      (st.mu = none ∧ m2 = some j ∧ pc2.holdsLock = true) ∨
      (pc.holdsLock = true ∧ m2 = none ∧ pc2.holdsLock = false))
    (hbound : q2.getD username 0 ≤ 5) :
    Conc.Inv keys username c0 n
      { keys := st.keys, userQueries := q2, mu := m2, handlers := st.handlers.set j pc2 } := by
  have hjlt : j < st.handlers.length := (List.getElem?_eq_some.1 hj).1
  have hothers : pc.holdsLock = true → ∀ i p, i ≠ j → st.handlers[i]? = some p →
      p.holdsLock = false := by
    intro hl i p hij hp
    have hmuj : st.mu = some j := (hinv.holder j pc hj).1 hl
    cases hpl : p.holdsLock with
    | false => rfl
    | true =>
      have := (hinv.holder i p hp).1 hpl
      rw [hmuj] at this
      exact absurd (Option.some.inj this).symm hij
  refine ⟨hinv.keys_eq, by simp [hinv.length_eq], ?_, ?_, ?_, ?_, hbound⟩
  · intro p hp
    simp only at hp ⊢
    obtain ⟨i, hi⟩ := List.mem_iff_getElem?.1 hp
    rw [getElem?_set_of _ _ _ _ _ hj] at hi
    by_cases hij : i = j
    · simp [hij] at hi
      subst hi
      exact hok
    · simp [hij] at hi
      have hp0 := hinv.ok p (List.mem_iff_getElem?.2 ⟨i, hi⟩)
      rcases hcount with hq | ⟨hl, hle⟩
      · rw [hq]; exact hp0
      · exact Conc.Pc.ok_mono keys username _ _ p (hothers hl i p hij hi) hle hp0
  · intro i p hi
    simp only at hi ⊢
    rw [getElem?_set_of _ _ _ _ _ hj] at hi
    by_cases hij : i = j
    · simp [hij] at hi
      subst hi
      subst hij
      have hold := hinv.holder i pc hj
      rcases hmu with ⟨h1, h2⟩ | ⟨h1, h2, h3⟩ | ⟨h1, h2, h3⟩
      · rw [h1, h2]; exact hold
      · simp [h2, h3]
      · simp [h2, h3]
    · simp [hij] at hi
      have hold := hinv.holder i p hi
      rcases hmu with ⟨h1, h2⟩ | ⟨h1, h2, h3⟩ | ⟨h1, h2, h3⟩
      · rw [h1]; exact hold
      · rw [h1] at hold
        simp only [h2]
        constructor
        · intro hp; exact absurd (hold.1 hp) (by simp)
        · intro hp; exact absurd (Option.some.inj hp).symm hij
      · have := hothers h1 i p hij hi
        simp [this, h2]
  · intro i hi
    simp only at hi ⊢
    rw [List.length_set]
    rcases hmu with ⟨h1, h2⟩ | ⟨h1, h2, h3⟩ | ⟨h1, h2, h3⟩
    · exact hinv.holder_lt i (by rw [← h1]; exact hi)
    · rw [h2] at hi
      rw [← Option.some.inj hi]
      exact hjlt
    · rw [h2] at hi
      exact absurd hi (by simp)
  · simp only
    have hs := sum_map_set Conc.Pc.incremented st.handlers j pc pc2 hj
    have ht := hinv.total
    omega

theorem Conc.Inv.step {keys : GoMap String} {username : String} {c0 n : Nat}
    {st : Conc.State} (hinv : Conc.Inv keys username c0 n st) (j : Nat) (st2 : Conc.State)
    (h : Conc.step st j = some st2) : Conc.Inv keys username c0 n st2 := by
  unfold Conc.step at h
  cases hj : st.handlers[j]? with
  | none => simp [hj] at h
  | some pc =>
    have hpc := hinv.ok pc (List.mem_iff_getElem?.2 ⟨j, hj⟩)
    have hold := hinv.holder j pc hj
    have hb := hinv.bound
    cases pc with
    | lookup apiKey =>
      have hk : st.keys.get? apiKey = some username := by rw [hinv.keys_eq]; exact hpc
      simp only [hj, hk, Option.some.injEq] at h
      subst h
      exact hinv.update j _ (.lock username) hj st.userQueries st.mu rfl (Or.inl rfl) rfl
        (Or.inl ⟨rfl, rfl⟩) hb
    | sendUnauthorized => exact absurd hpc (by simp [Conc.Pc.ok])
    | lock u =>
      simp only [hj] at h
      cases hmu : st.mu with
      | some i => simp [hmu] at h
      | none =>
        simp only [hmu, Option.some.injEq] at h
        subst h
        exact hinv.update j _ (.read u) hj st.userQueries (some j) hpc (Or.inl rfl) rfl
          (Or.inr (Or.inl ⟨hmu, rfl, rfl⟩)) hb
    | read u =>
      simp only [hj, Option.some.injEq] at h
      subst h
      have hu : u = username := hpc
      subst hu
      exact hinv.update j _ (.check u (st.userQueries.getD u 0)) hj st.userQueries st.mu
        ⟨rfl, rfl⟩ (Or.inl rfl) rfl (Or.inl ⟨rfl, rfl⟩) hb
    | check u currentCount =>
      simp only [hj] at h
      obtain ⟨hu, hc⟩ : u = username ∧ currentCount = st.userQueries.getD username 0 := hpc
      by_cases hge : currentCount ≥ maxRequestsPerUser
      · simp only [hge, if_true, Option.some.injEq] at h
        subst h
        exact hinv.update j _ (.unlockDeny u) hj st.userQueries st.mu
          ⟨hu, by rw [← hc]; exact hge⟩ (Or.inl rfl) rfl (Or.inl ⟨rfl, rfl⟩) hb
      · simp only [hge, if_false, Option.some.injEq] at h
        subst h
        exact hinv.update j _ (.increment u) hj st.userQueries st.mu
          ⟨hu, by rw [← hc]; simpa [maxRequestsPerUser] using hge⟩ (Or.inl rfl) rfl
          (Or.inl ⟨rfl, rfl⟩) hb
    | unlockDeny u =>
      simp only [hj, Option.some.injEq] at h
      subst h
      exact hinv.update j _ (.sendDeny u) hj st.userQueries none hpc (Or.inl rfl) rfl
        (Or.inr (Or.inr ⟨rfl, rfl, rfl⟩)) hb
    | sendDeny u =>
      simp only [hj, Option.some.injEq] at h
      subst h
      have h5 : 5 ≤ st.userQueries.getD username 0 := hpc.2
      exact hinv.update j _ (.done quotaResponse) hj st.userQueries st.mu
        (Or.inr ⟨rfl, h5⟩) (Or.inl rfl) rfl (Or.inl ⟨rfl, rfl⟩) hb
    | increment u =>
      simp only [hj, Option.some.injEq] at h
      subst h
      obtain ⟨hu, hlt⟩ : u = username ∧ st.userQueries.getD username 0 < 5 := hpc
      subst hu
      have hmod : (st.userQueries.getD u 0 + 1) % 2 ^ 64 = st.userQueries.getD u 0 + 1 :=
        Nat.mod_eq_of_lt (by omega)
      have hnew : (st.userQueries.set u ((st.userQueries.getD u 0 + 1) % 2 ^ 64)).getD u 0 =
          st.userQueries.getD u 0 + 1 := by
        rw [GoMap.getD_set_self, hmod]
      exact hinv.update j _ (.readNew u) hj _ st.mu rfl
        (Or.inr ⟨rfl, by rw [hnew]; omega⟩) (by rw [hnew]; rfl) (Or.inl ⟨rfl, rfl⟩)
        (by rw [hnew]; omega)
    | readNew u =>
      simp only [hj, Option.some.injEq] at h
      subst h
      exact hinv.update j _ (.unlockAllow u (st.userQueries.getD u 0)) hj st.userQueries st.mu
        hpc (Or.inl rfl) rfl (Or.inl ⟨rfl, rfl⟩) hb
    | unlockAllow u newCount =>
      simp only [hj, Option.some.injEq] at h
      subst h
      exact hinv.update j _ (.sendContinue u) hj st.userQueries none hpc (Or.inl rfl) rfl
        (Or.inr (Or.inr ⟨rfl, rfl, rfl⟩)) hb
    | sendContinue u =>
      simp only [hj, Option.some.injEq] at h
      subst h
      exact hinv.update j _ (.done continueResponse) hj st.userQueries st.mu
        (Or.inl rfl) (Or.inl rfl) rfl (Or.inl ⟨rfl, rfl⟩) hb
    | done verdict => simp [hj] at h

theorem Conc.Inv.of_start (keys : GoMap String) (userQueries : GoMap Nat) (username : String)
    (apiKeys : List String) (hkeys : ∀ k ∈ apiKeys, keys.get? k = some username)
    (hle : userQueries.getD username 0 ≤ 5) :
    Conc.Inv keys username (userQueries.getD username 0) apiKeys.length
      (Conc.start keys userQueries apiKeys) := by
  refine ⟨rfl, by simp [Conc.start], ?_, ?_, ?_, ?_, hle⟩
  · intro pc hpc
    simp only [Conc.start, List.mem_map] at hpc
    obtain ⟨k, hk, rfl⟩ := hpc
    exact hkeys k hk
  · intro i pc hi
    simp only [Conc.start, List.getElem?_map] at hi
    cases hk : apiKeys[i]? with
    | none => simp [hk] at hi
    | some k =>
      simp [hk] at hi
      subst hi
      simp [Conc.Pc.holdsLock, Conc.start]
  · intro i hi
    simp [Conc.start] at hi
  · have hz : ∀ l : List String, ((l.map Conc.Pc.lookup).map Conc.Pc.incremented).sum = 0 := by
      intro l
      induction l with
      | nil => rfl
      | cons k rest ih =>
        simp only [List.map_cons, List.sum_cons, ih, Conc.Pc.incremented]
    simp only [Conc.start, hz, Nat.add_zero]

theorem Conc.Inv.run {keys : GoMap String} {username : String} {c0 n : Nat}
    (sched : List Nat) {st : Conc.State} (hinv : Conc.Inv keys username c0 n st)
    (st2 : Conc.State) (h : Conc.run st sched = some st2) :
    Conc.Inv keys username c0 n st2 := by
  induction sched generalizing st with
  | nil =>
    simp [Conc.run] at h
    subst h
    exact hinv
  | cons i rest ih =>
    simp only [Conc.run] at h
    cases hs : Conc.step st i with
    | none => simp [hs] at h
    | some st1 =>
      simp only [hs] at h
      exact ih (hinv.step i st1 hs) h

theorem Conc.step_shape (st : Conc.State) (j : Nat) (st2 : Conc.State)
    (h : Conc.step st j = some st2) :
    ∃ pc pc2, st.handlers[j]? = some pc ∧ st2.handlers = st.handlers.set j pc2 ∧
      pc2.rank < pc.rank := by
  unfold Conc.step at h
  cases hj : st.handlers[j]? with
  | none => simp [hj] at h
  | some pc =>
    cases pc with
    | lookup apiKey =>
      simp only [hj] at h
      cases hk : st.keys.get? apiKey with
      | none =>
        simp only [hk, Option.some.injEq] at h
        subst h
        exact ⟨_, .sendUnauthorized, rfl, rfl, by simp [Conc.Pc.rank]⟩
      | some u =>
        simp only [hk, Option.some.injEq] at h
        subst h
        exact ⟨_, .lock u, rfl, rfl, by simp [Conc.Pc.rank]⟩
    | lock u =>
      simp only [hj] at h
      cases hmu : st.mu with
      | some i => simp [hmu] at h
      | none =>
        simp only [hmu, Option.some.injEq] at h
        subst h
        exact ⟨_, .read u, rfl, rfl, by simp [Conc.Pc.rank]⟩
    | check u currentCount =>
      simp only [hj] at h
      by_cases hge : currentCount ≥ maxRequestsPerUser
      · simp only [hge, if_true, Option.some.injEq] at h
        subst h
        exact ⟨_, .unlockDeny u, rfl, rfl, by simp [Conc.Pc.rank]⟩
      · simp only [hge, if_false, Option.some.injEq] at h
        subst h
        exact ⟨_, .increment u, rfl, rfl, by simp [Conc.Pc.rank]⟩
    | done verdict => simp [hj] at h
    | sendUnauthorized =>
      simp only [hj, Option.some.injEq] at h
      subst h
      exact ⟨_, _, rfl, rfl, by simp [Conc.Pc.rank]⟩
    | read u =>
      simp only [hj, Option.some.injEq] at h
      subst h
      exact ⟨_, _, rfl, rfl, by simp [Conc.Pc.rank]⟩
    | unlockDeny u =>
      simp only [hj, Option.some.injEq] at h
      subst h
      exact ⟨_, _, rfl, rfl, by simp [Conc.Pc.rank]⟩
    | sendDeny u =>
      simp only [hj, Option.some.injEq] at h
      subst h
      exact ⟨_, _, rfl, rfl, by simp [Conc.Pc.rank]⟩
    | increment u =>
      simp only [hj, Option.some.injEq] at h
      subst h
      exact ⟨_, _, rfl, rfl, by simp [Conc.Pc.rank]⟩
    | readNew u =>
      simp only [hj, Option.some.injEq] at h
      subst h
      exact ⟨_, _, rfl, rfl, by simp [Conc.Pc.rank]⟩
    | unlockAllow u newCount =>
      simp only [hj, Option.some.injEq] at h
      subst h
      exact ⟨_, _, rfl, rfl, by simp [Conc.Pc.rank]⟩
    | sendContinue u =>
      simp only [hj, Option.some.injEq] at h
      subst h
      exact ⟨_, _, rfl, rfl, by simp [Conc.Pc.rank]⟩

theorem Conc.run_length (sched : List Nat) (st st2 : Conc.State)
    (h : Conc.run st sched = some st2) :
    (st2.handlers.map Conc.Pc.rank).sum + sched.length ≤ (st.handlers.map Conc.Pc.rank).sum := by
  induction sched generalizing st with
  | nil =>
    simp [Conc.run] at h
    subst h
    simp
  | cons i rest ih =>
    simp only [Conc.run] at h
    cases hs : Conc.step st i with
    | none => simp [hs] at h
    | some st1 =>
      simp only [hs] at h
      have h1 := ih st1 h
      obtain ⟨pc, pc2, hj, hset, hrank⟩ := Conc.step_shape st i st1 hs
      have h2 := sum_map_set Conc.Pc.rank st.handlers i pc pc2 hj
      rw [← hset] at h2
      simp only [List.length_cons]
      omega

theorem Conc.start_rank (keys : GoMap String) (userQueries : GoMap Nat)
    (apiKeys : List String) :
    ((Conc.start keys userQueries apiKeys).handlers.map Conc.Pc.rank).sum =
      8 * apiKeys.length := by
  simp only [Conc.start]
  induction apiKeys with
  | nil => rfl
  | cons k rest ih =>
    simp only [List.map_cons, List.sum_cons, List.length_cons, ih, Conc.Pc.rank]
    omega

theorem Conc.Inv.can_step {keys : GoMap String} {username : String} {c0 n : Nat}
    {st : Conc.State} (hinv : Conc.Inv keys username c0 n st) (hfin : st.finished = false) :
    ∃ i, (Conc.step st i).isSome = true := by
  cases hmu : st.mu with
  | some h =>
    have hlt := hinv.holder_lt h hmu
    have hj : st.handlers[h]? = some st.handlers[h] := List.getElem?_eq_getElem hlt
    have hl := (hinv.holder h _ hj).2 hmu
    refine ⟨h, ?_⟩
    unfold Conc.step
    rw [hj]
    cases hpc : st.handlers[h] with
    | check u c =>
      simp only
      split <;> rfl
    | lookup k => rw [hpc] at hl; simp [Conc.Pc.holdsLock] at hl
    | sendUnauthorized => rw [hpc] at hl; simp [Conc.Pc.holdsLock] at hl
    | lock u => rw [hpc] at hl; simp [Conc.Pc.holdsLock] at hl
    | sendDeny u => rw [hpc] at hl; simp [Conc.Pc.holdsLock] at hl
    | sendContinue u => rw [hpc] at hl; simp [Conc.Pc.holdsLock] at hl
    | done v => rw [hpc] at hl; simp [Conc.Pc.holdsLock] at hl
    | read u => rfl
    | unlockDeny u => rfl
    | increment u => rfl
    | readNew u => rfl
    | unlockAllow u c => rfl
  | none =>
    have hex : ∃ pc ∈ st.handlers, pc.isDone = false := by
      by_contra hcon
      have hall : st.handlers.all Conc.Pc.isDone = true := by
        rw [List.all_eq_true]
        intro pc hpc
        cases hd : pc.isDone with
        | true => rfl
        | false => exact absurd ⟨pc, hpc, hd⟩ hcon
      unfold Conc.State.finished at hfin
      rw [hall] at hfin
      exact absurd hfin (by decide)
    obtain ⟨pc, hmem, hnd⟩ := hex
    obtain ⟨i, hi⟩ := List.mem_iff_getElem?.1 hmem
    refine ⟨i, ?_⟩
    unfold Conc.step
    rw [hi]
    cases pc with
    | lookup k =>
      simp only
      split <;> rfl
    | check u c =>
      simp only
      split <;> rfl
    | lock u => simp only [hmu]; rfl
    | done v => simp [Conc.Pc.isDone] at hnd
    | sendUnauthorized => rfl
    | sendDeny u => rfl
    | sendContinue u => rfl
    | read u => rfl
    | unlockDeny u => rfl
    | increment u => rfl
    | readNew u => rfl
    | unlockAllow u c => rfl

theorem Conc.countP_continue_le (l : List Conc.Pc) :
    l.countP (fun pc => decide (pc = .done continueResponse)) ≤
      (l.map Conc.Pc.incremented).sum := by
  induction l with
  | nil => simp
  | cons pc rest ih =>
    by_cases hpc : pc = .done continueResponse
    · subst hpc
      simp only [List.countP_cons, List.map_cons, List.sum_cons, Conc.Pc.incremented]
      simp
      omega
    · simp only [List.countP_cons, List.map_cons, List.sum_cons, hpc, decide_False]
      simp
      omega

theorem Conc.finished_counts (keys : GoMap String) (username : String) (c : Nat)
    (l : List Conc.Pc) (hdone : l.all Conc.Pc.isDone = true)
    (hok : ∀ pc ∈ l, pc.ok keys username c) :
    l.countP (fun pc => decide (pc = .done continueResponse)) =
      (l.map Conc.Pc.incremented).sum ∧
    l.countP (fun pc => decide (pc = .done continueResponse)) +
      l.countP (fun pc => decide (pc = .done quotaResponse)) = l.length ∧
    (0 < l.countP (fun pc => decide (pc = .done quotaResponse)) → 5 ≤ c) := by
  induction l with
  | nil => simp
  | cons pc rest ih =>
    have hd : pc.isDone = true ∧ rest.all Conc.Pc.isDone = true := by
      simpa [List.all_cons] using hdone
    obtain ⟨i1, i2, i3⟩ := ih hd.2 (fun p hp => hok p (List.mem_cons_of_mem pc hp))
    have hpc := hok pc (List.mem_cons_self pc rest)
    have hne : continueResponse ≠ quotaResponse := by decide
    cases pc with
    | done v =>
      rcases hpc with hv | ⟨hv, h5⟩
      · subst hv
        have h1 : (Conc.Pc.done continueResponse = Conc.Pc.done quotaResponse) = False := by
          simp [hne]
        simp only [List.countP_cons, List.map_cons, List.sum_cons, Conc.Pc.incremented,
          List.length_cons, h1, decide_True, decide_False, if_true]
        simp only [if_true, Bool.false_eq_true, if_false]
        refine ⟨by omega, by omega, ?_⟩
        intro h
        exact i3 (by omega)
      · subst hv
        have h1 : (Conc.Pc.done quotaResponse = Conc.Pc.done continueResponse) = False := by
          simp [Ne.symm hne]
        have h2 : (quotaResponse = continueResponse) = False := by simp [Ne.symm hne]
        simp only [List.countP_cons, List.map_cons, List.sum_cons, Conc.Pc.incremented,
          List.length_cons, h1, h2, decide_True, decide_False, if_true]
        simp only [if_true, Bool.false_eq_true, if_false]
        exact ⟨by omega, by omega, fun _ => h5⟩
    | lookup k => simp [Conc.Pc.isDone] at hd
    | sendUnauthorized => simp [Conc.Pc.isDone] at hd
    | lock u => simp [Conc.Pc.isDone] at hd
    | read u => simp [Conc.Pc.isDone] at hd
    | check u c => simp [Conc.Pc.isDone] at hd
    | unlockDeny u => simp [Conc.Pc.isDone] at hd
    | sendDeny u => simp [Conc.Pc.isDone] at hd
    | increment u => simp [Conc.Pc.isDone] at hd
    | readNew u => simp [Conc.Pc.isDone] at hd
    | unlockAllow u c => simp [Conc.Pc.isDone] at hd
    | sendContinue u => simp [Conc.Pc.isDone] at hd

/-- C4: let K handlers, one per stream, each hold a request-headers event with
a valid key of the same user, whose counter is 5 − R with R < K, and let them
run concurrently, statement by statement, in any interleaving the mutex
permits. In every state the interleaving reaches at most R handlers have sent
a continue verdict; once all handlers have finished, exactly R have sent a
continue verdict and exactly K − R the quota response; as long as one has not
finished some handler can move, and no interleaving is longer than 8 K steps,
so every interleaving run to its end finishes all handlers. -/
theorem Conc.exactly_remaining_allowed (keys : GoMap String) (userQueries : GoMap Nat)
    (username : String) (apiKeys : List String) (R : Nat)
    (hkeys : ∀ k ∈ apiKeys, keys.get? k = some username)
    (hcount : userQueries.getD username 0 + R = 5)
    (hR : R < apiKeys.length)
    (sched : List Nat) (st : Conc.State)
    (hrun : Conc.run (Conc.start keys userQueries apiKeys) sched = some st) :
    st.verdictCount continueResponse ≤ R ∧
    (st.finished = true →
      st.verdictCount continueResponse = R ∧
      st.verdictCount quotaResponse = apiKeys.length - R) ∧
    (st.finished = false → ∃ i, (Conc.step st i).isSome = true) ∧
    sched.length ≤ 8 * apiKeys.length := by
  have hinv : Conc.Inv keys username (userQueries.getD username 0) apiKeys.length st :=
    Conc.Inv.run sched
      (Conc.Inv.of_start keys userQueries username apiKeys hkeys (by omega)) st hrun
  have htotal := hinv.total
  have hbound := hinv.bound
  have hle := Conc.countP_continue_le st.handlers
  have hlen := Conc.run_length sched _ st hrun
  rw [Conc.start_rank] at hlen
  refine ⟨?_, ?_, hinv.can_step, by omega⟩
  · unfold Conc.State.verdictCount
    omega
  · intro hfin
    obtain ⟨h1, h2, h3⟩ := Conc.finished_counts keys username _ st.handlers hfin hinv.ok
    have hl := hinv.length_eq
    unfold Conc.State.verdictCount
    by_cases hq : 0 < st.handlers.countP (fun pc => decide (pc = .done quotaResponse))
    · have := h3 hq
      omega
    · omega

/-- Witness for C4: three concurrent requests of `alice`, whose counter is 3
(R = 2, K = 3), interleaved so that the second and third handler take the
mutex before the first: two continue verdicts, one quota response. -/
theorem Conc.exactly_remaining_allowed_witness :
    Conc.State.finished
      ⟨exampleKeys, [("alice", 5)], none,
       [.done quotaResponse, .done continueResponse, .done continueResponse]⟩ = true ∧
    Conc.State.verdictCount
      ⟨exampleKeys, [("alice", 5)], none,
       [.done quotaResponse, .done continueResponse, .done continueResponse]⟩
      continueResponse = 2 ∧
    Conc.State.verdictCount
      ⟨exampleKeys, [("alice", 5)], none,
       [.done quotaResponse, .done continueResponse, .done continueResponse]⟩
      quotaResponse = 3 - 2 :=
  ⟨by decide,
   (Conc.exactly_remaining_allowed exampleKeys [("alice", 3)] "alice"
      ["abc123", "abc123", "abc123"] 2 (by decide) (by decide) (by decide)
      [0, 1, 2, 1, 1, 1, 1, 1, 1, 2, 1, 2, 2, 2, 2, 2, 0, 0, 2, 0, 0, 0]
      ⟨exampleKeys, [("alice", 5)], none,
       [.done quotaResponse, .done continueResponse, .done continueResponse]⟩
      (by decide)).2.1 (by decide)⟩

/-! ### The effect of an iteration on the counters -/

theorem handle_effect (s : authServer) (sendErrs : List (Option GoError))
    (req : ProcessingRequest) :
    (handle s sendErrs req).srv.keys = s.keys ∧
    ((handle s sendErrs req).srv = s ∨
     ∃ (v : Option HttpHeaders) (username : String),
       req = ⟨some (.RequestHeaders v)⟩ ∧
       s.keys.get? (extractApiKey v) = some username ∧
       s.count username < 5 ∧
       (handle s sendErrs req).srv =
         { s with userQueries := s.userQueries.set username (s.count username + 1) }) := by
  refine ⟨handle_keys s sendErrs req, ?_⟩
  cases hk : isRequestHeaders req with
  | false => left; rw [handle_other_kind s sendErrs req hk]
  | true =>
    obtain ⟨r⟩ := req
    cases r with
    | none => simp [isRequestHeaders] at hk
    | some k =>
      cases k <;> first
        | (simp [isRequestHeaders] at hk; done)
        | skip
      rename_i v
      cases hkey : s.keys.get? (extractApiKey v) with
      | none => left; rw [handle_unknown_key s sendErrs v hkey]
      | some username =>
        by_cases hcount : s.count username < 5
        · right
          exact ⟨v, username, rfl, hkey, hcount,
            by rw [handle_allowed s sendErrs v username hkey hcount]⟩
        · left; rw [handle_quota_used s sendErrs v username hkey (by omega)]

theorem count_set_self (s : authServer) (username : String) (n : Nat) :
    authServer.count { s with userQueries := s.userQueries.set username n } username = n := by
  simp [authServer.count, GoMap.getD_set_self]

theorem count_set_other (s : authServer) (username u2 : String) (n : Nat) (h : u2 ≠ username) :
    authServer.count { s with userQueries := s.userQueries.set username n } u2 = s.count u2 := by
  simp [authServer.count, GoMap.getD_set_other _ _ _ _ _ h]

theorem handle_count_frame (s : authServer) (sendErrs : List (Option GoError))
    (req : ProcessingRequest) (u : String) :
    s.count u ≤ (handle s sendErrs req).srv.count u ∧
    (5 ≤ s.count u → (handle s sendErrs req).srv.count u = s.count u) := by
  rcases (handle_effect s sendErrs req).2 with h | ⟨v, username, -, -, hlt, h⟩
  · rw [h]
    exact ⟨Nat.le_refl _, fun _ => rfl⟩
  · rw [h]
    by_cases hu : u = username
    · subst hu
      rw [count_set_self]
      exact ⟨by omega, fun h5 => by omega⟩
    · rw [count_set_other s username u _ hu]
      exact ⟨Nat.le_refl _, fun _ => rfl⟩

theorem Reachable.frame {init s : authServer} (h : Reachable init s) :
    s.keys = init.keys ∧
    ∀ u, init.count u ≤ s.count u ∧ (5 ≤ init.count u → s.count u = init.count u) := by
  induction h with
  | start => exact ⟨rfl, fun u => ⟨Nat.le_refl _, fun _ => rfl⟩⟩
  | step s sendErrs req _ ih =>
    refine ⟨by rw [handle_keys, ih.1], ?_⟩
    intro u
    have hf := handle_count_frame s sendErrs req u
    have hi := ih.2 u
    refine ⟨by omega, ?_⟩
    intro h5
    rw [hf.2 (by omega), hi.2 h5]

/-- C11: in every counter state in which the counter of the resolved username
is at least 5 (also above 5), a request-headers event with a valid key of that
user gets the immediate response 429 "Daily quota has been reached and will
reset at 4:00AM EST." and the server, so the entire counter map, is left
unchanged; and in every state reached from there by any later iterations on
any events (so after any calls of `Process` on any streams) the counter of
that user is the same and a request-headers event of that user again gets the
429 response, never a continue verdict. -/
theorem quota_reached_denied_forever (s : authServer) (username : String)
    (h5 : 5 ≤ s.count username) :
    (∀ (v : Option HttpHeaders) (sendErrs : List (Option GoError)),
      s.keys.get? (extractApiKey v) = some username →
      (handle s sendErrs ⟨some (.RequestHeaders v)⟩).sent =
        [⟨some (.ImmediateResponse ⟨some ⟨429⟩, none,
          "Daily quota has been reached and will reset at 4:00AM EST."⟩)⟩] ∧
      (handle s sendErrs ⟨some (.RequestHeaders v)⟩).srv = s) ∧
    (∀ s2, Reachable s s2 →
      s2.count username = s.count username ∧
      ∀ (v : Option HttpHeaders) (sendErrs : List (Option GoError)),
        s.keys.get? (extractApiKey v) = some username →
        (handle s2 sendErrs ⟨some (.RequestHeaders v)⟩).sent =
          [⟨some (.ImmediateResponse ⟨some ⟨429⟩, none,
            "Daily quota has been reached and will reset at 4:00AM EST."⟩)⟩] ∧
        (handle s2 sendErrs ⟨some (.RequestHeaders v)⟩).srv = s2) ∧
    (∀ (streams : List Stream) (v : Option HttpHeaders) (rest : List ProcessingRequest)
        (recvEnd : GoError) (sendErrs : List (Option GoError)),
      s.keys.get? (extractApiKey v) = some username →
      (Process (serve s streams).1
          ⟨⟨some (.RequestHeaders v)⟩ :: rest, recvEnd, sendErrs⟩).sent =
        [⟨some (.ImmediateResponse ⟨some ⟨429⟩, none,
          "Daily quota has been reached and will reset at 4:00AM EST."⟩)⟩] ∧
      (Process (serve s streams).1
          ⟨⟨some (.RequestHeaders v)⟩ :: rest, recvEnd, sendErrs⟩).srv.userQueries =
        (serve s streams).1.userQueries) := by
  have hq : quotaResponse = ⟨some (.ImmediateResponse ⟨some ⟨429⟩, none,
      "Daily quota has been reached and will reset at 4:00AM EST."⟩)⟩ := rfl
  have hat : ∀ s2, Reachable s s2 →
      ∀ (v : Option HttpHeaders) (sendErrs : List (Option GoError)),
        s.keys.get? (extractApiKey v) = some username →
        handle s2 sendErrs ⟨some (.RequestHeaders v)⟩ =
          { srv := s2, sendErrs := (Send sendErrs quotaResponse).2.1,
            sent := [quotaResponse],
            log := ["DENY: Quota exceeded for user '" ++ username ++ "'."],
            ret := some (Send sendErrs quotaResponse).1 } := by
    intro s2 hr v sendErrs hkey
    have hf := hr.frame
    exact handle_quota_used s2 sendErrs v username (by rw [hf.1]; exact hkey)
      (by rw [(hf.2 username).2 h5]; exact h5)
  refine ⟨?_, ?_, ?_⟩
  · intro v sendErrs hkey
    rw [hat s Reachable.start v sendErrs hkey]
    exact ⟨hq ▸ rfl, rfl⟩
  · intro s2 hr
    refine ⟨(hr.frame.2 username).2 h5, ?_⟩
    intro v sendErrs hkey
    rw [hat s2 hr v sendErrs hkey]
    exact ⟨hq ▸ rfl, rfl⟩
  · intro streams v rest recvEnd sendErrs hkey
    have hr := (Reachable.serve_outcomes (Reachable.start : Reachable s s) streams).1
    have hh := hat _ hr v sendErrs hkey
    have hret : (handle (serve s streams).1 sendErrs ⟨some (.RequestHeaders v)⟩).ret =
        some (Send sendErrs quotaResponse).1 := by rw [hh]
    simp only [Process, ProcessLoop_cons_ret recvEnd _ sendErrs _ rest _ hret]
    rw [hh]
    exact ⟨hq ▸ rfl, rfl⟩

/-- Witness for C11: the counter of `alice` stands at 7; after two requests of
`bob` a request of `alice` is answered 429 and the counters stay as they are. -/
theorem quota_reached_denied_forever_witness :
    (Process (serve ⟨exampleKeys, [("alice", 7)]⟩
        (List.replicate 2 (exampleStream "xyz789"))).1 (exampleStream "abc123")).sent =
      [⟨some (.ImmediateResponse ⟨some ⟨429⟩, none,
        "Daily quota has been reached and will reset at 4:00AM EST."⟩)⟩] ∧
    (Process (serve ⟨exampleKeys, [("alice", 7)]⟩
        (List.replicate 2 (exampleStream "xyz789"))).1 (exampleStream "abc123")).srv.userQueries =
      [("alice", 7), ("bob", 2)] :=
  have h := (quota_reached_denied_forever ⟨exampleKeys, [("alice", 7)]⟩ "alice"
    (by decide)).2.2 (List.replicate 2 (exampleStream "xyz789"))
    (some ⟨some ⟨[some ⟨"x-api-key", "", "abc123"⟩]⟩, false⟩)
    [⟨some (.RequestBody (some ⟨"", true⟩))⟩] .EOF [] (by decide)
  ⟨h.1, h.2.trans (by decide)⟩

/-! ### Receive and send errors -/

theorem handle_shape (s : authServer) (sendErrs : List (Option GoError))
    (req : ProcessingRequest) :
    ∃ m, (handle s sendErrs req).sent = [m] ∧ (handle s [] req).sent = [m] ∧
      (handle s sendErrs req).srv = (handle s [] req).srv ∧
      (handle s sendErrs req).sendErrs = (Send sendErrs m).2.1 ∧
      ((isImmediate m = true ∧ (handle s sendErrs req).ret = some (Send sendErrs m).1) ∨
       (m = continueResponse ∧ (handle s sendErrs req).ret = (Send sendErrs m).1.map some)) := by
  cases hk : isRequestHeaders req with
  | false =>
    rw [handle_other_kind s sendErrs req hk, handle_other_kind s [] req hk]
    exact ⟨_, rfl, rfl, rfl, rfl, Or.inr ⟨rfl, rfl⟩⟩
  | true =>
    obtain ⟨r⟩ := req
    cases r with
    | none => simp [isRequestHeaders] at hk
    | some k =>
      cases k <;> first
        | (simp [isRequestHeaders] at hk; done)
        | skip
      rename_i v
      cases hkey : s.keys.get? (extractApiKey v) with
      | none =>
        rw [handle_unknown_key s sendErrs v hkey, handle_unknown_key s [] v hkey]
        exact ⟨_, rfl, rfl, rfl, rfl, Or.inl ⟨rfl, rfl⟩⟩
      | some username =>
        by_cases hcount : s.count username < 5
        · rw [handle_allowed s sendErrs v username hkey hcount,
            handle_allowed s [] v username hkey hcount]
          exact ⟨_, rfl, rfl, rfl, rfl, Or.inr ⟨rfl, rfl⟩⟩
        · rw [handle_quota_used s sendErrs v username hkey (by omega),
            handle_quota_used s [] v username hkey (by omega)]
          exact ⟨_, rfl, rfl, rfl, rfl, Or.inl ⟨rfl, rfl⟩⟩

theorem verdicts_length (events : List ProcessingRequest) (s : authServer) :
    (verdicts s events).length = events.length := by
  induction events generalizing s with
  | nil => rfl
  | cons req rest ih =>
    obtain ⟨m, -, hm, -⟩ := handle_shape s [] req
    simp [verdicts, hm, ih]

theorem ProcessLoop_recv_fails (recvEnd : GoError) (events : List ProcessingRequest) :
    ∀ (s : authServer) (sendErrs : List (Option GoError)), (∀ e ∈ sendErrs, e = none) →
      (∀ m ∈ verdicts s events, isImmediate m = false) →
      (ProcessLoop recvEnd s sendErrs events).sent = verdicts s events ∧
      (ProcessLoop recvEnd s sendErrs events).unread = [] ∧
      (ProcessLoop recvEnd s sendErrs events).srv = stateAfter s events ∧
      ((recvEnd = GoError.EOF ∨ status.Code recvEnd = codes.Canceled) →
        (ProcessLoop recvEnd s sendErrs events).err = none) ∧
      (¬ (recvEnd = GoError.EOF ∨ status.Code recvEnd = codes.Canceled) →
        (ProcessLoop recvEnd s sendErrs events).err = some recvEnd) := by
  induction events with
  | nil =>
    intro s sendErrs _ _
    unfold ProcessLoop
    split <;> simp_all [verdicts, stateAfter]
  | cons req rest ih =>
    intro s sendErrs hse hno
    obtain ⟨m, h1, h2, h3, h4, h5⟩ := handle_shape s sendErrs req
    have hsend := Send_ok sendErrs m hse
    have hm : isImmediate m = false := hno m (by simp [verdicts, h2])
    have hret : (handle s sendErrs req).ret = none := by
      rcases h5 with ⟨hi, -⟩ | ⟨-, hr⟩
      · rw [hm] at hi; exact absurd hi (by decide)
      · rw [hr, hsend.1]; rfl
    have hrest : ∀ m2 ∈ verdicts (handle s sendErrs req).srv rest, isImmediate m2 = false := by
      intro m2 hm2
      rw [h3] at hm2
      exact hno m2 (by simp only [verdicts]; exact List.mem_append_right _ hm2)
    obtain ⟨i1, i2, i3, i4, i5⟩ := ih (handle s sendErrs req).srv (handle s sendErrs req).sendErrs
      (by rw [h4]; exact hsend.2) hrest
    rw [ProcessLoop_cons_next recvEnd s sendErrs req rest hret]
    simp only [verdicts, stateAfter]
    rw [← h3, h1, h2]
    exact ⟨by rw [i1], i2, i3, i4, i5⟩

theorem ProcessLoop_send_fails (recvEnd : GoError) (k : Nat) :
    ∀ (s : authServer) (events : List ProcessingRequest) (e : GoError)
      (later : List (Option GoError)), k < events.length →
      (∀ m ∈ verdicts s (events.take k), isImmediate m = false) →
      (ProcessLoop recvEnd s (List.replicate k none ++ some e :: later) events).err = some e ∧
      (ProcessLoop recvEnd s (List.replicate k none ++ some e :: later) events).sent =
        verdicts s (events.take (k + 1)) ∧
      (ProcessLoop recvEnd s (List.replicate k none ++ some e :: later) events).unread =
        events.drop (k + 1) ∧
      (ProcessLoop recvEnd s (List.replicate k none ++ some e :: later) events).srv =
        stateAfter s (events.take (k + 1)) := by
  induction k with
  | zero =>
    intro s events e later hlt _
    cases events with
    | nil => simp at hlt
    | cons req rest =>
      obtain ⟨m, h1, h2, h3, h4, h5⟩ := handle_shape s (some e :: later) req
      have hret : (handle s (some e :: later) req).ret = some (some e) := by
        rcases h5 with ⟨-, hr⟩ | ⟨-, hr⟩
        · rw [hr]; rfl
        · rw [hr]; rfl
      simp only [List.replicate_zero, List.nil_append, Nat.zero_add, List.take_succ_cons,
        List.take_zero, List.drop_succ_cons, List.drop_zero]
      rw [ProcessLoop_cons_ret recvEnd s _ req rest _ hret]
      simp only [verdicts, stateAfter, List.append_nil]
      exact ⟨trivial, by rw [h1, h2], trivial, h3⟩
  | succ k ih =>
    intro s events e later hlt hno
    cases events with
    | nil => simp at hlt
    | cons req rest =>
      simp only [List.replicate_succ, List.cons_append]
      obtain ⟨m, h1, h2, h3, h4, h5⟩ :=
        handle_shape s (none :: (List.replicate k none ++ some e :: later)) req
      have hm : isImmediate m = false :=
        hno m (by simp [List.take_succ_cons, verdicts, h2])
      have hret : (handle s (none :: (List.replicate k none ++ some e :: later)) req).ret =
          none := by
        rcases h5 with ⟨hi, -⟩ | ⟨-, hr⟩
        · rw [hm] at hi; exact absurd hi (by decide)
        · rw [hr]; rfl
      have hse : (handle s (none :: (List.replicate k none ++ some e :: later)) req).sendErrs =
          List.replicate k none ++ some e :: later := by rw [h4]; rfl
      have hrest : ∀ m2 ∈ verdicts
          (handle s (none :: (List.replicate k none ++ some e :: later)) req).srv
          (rest.take k), isImmediate m2 = false := by
        intro m2 hm2
        rw [h3] at hm2
        exact hno m2 (by
          simp only [List.take_succ_cons, verdicts]
          exact List.mem_append_right _ hm2)
      have hlt2 : k < rest.length := by simpa using hlt
      obtain ⟨i1, i2, i3, i4⟩ := ih _ rest e later hlt2 hrest
      rw [ProcessLoop_cons_next recvEnd s _ req rest hret, hse]
      simp only [List.take_succ_cons, List.drop_succ_cons, verdicts, stateAfter]
      rw [← h3, h1, h2]
      exact ⟨i1, by rw [i2], i3, i4⟩

/-- C12: when the receive of the next event fails (after events that were all
answered with a continue verdict whose send succeeded), `Process` has sent
exactly the verdicts of the events received, nothing more, and returns nil if
the error is `io.EOF` or has the status code Canceled, and the receive error
itself otherwise (after logging it); and when the send of a verdict fails, be
it a continue or a deny verdict, `Process` returns that send error at once:
the verdicts handed to `Send` are those of the events up to that one, and the
events after it are left unread. -/
theorem Process_recv_and_send_errors (s : authServer) (recvEnd : GoError) :
    (∀ sendErrs : List (Option GoError),
      Process s ⟨[], recvEnd, sendErrs⟩ =
        if recvEnd = GoError.EOF ∨ status.Code recvEnd = codes.Canceled then
          { err := none, srv := s, sent := [], log := [], unread := [] }
        else
          { err := some recvEnd, srv := s, sent := [],
            log := ["stream recv error: " ++ recvEnd.Error], unread := [] }) ∧
    (∀ (events : List ProcessingRequest) (sendErrs : List (Option GoError)),
      (∀ e ∈ sendErrs, e = none) →
      (∀ m ∈ verdicts s events, isImmediate m = false) →
      (Process s ⟨events, recvEnd, sendErrs⟩).sent = verdicts s events ∧
      (Process s ⟨events, recvEnd, sendErrs⟩).sent.length = events.length ∧
      ((recvEnd = GoError.EOF ∨ status.Code recvEnd = codes.Canceled) →
        (Process s ⟨events, recvEnd, sendErrs⟩).err = none) ∧
      (¬ (recvEnd = GoError.EOF ∨ status.Code recvEnd = codes.Canceled) →
        (Process s ⟨events, recvEnd, sendErrs⟩).err = some recvEnd)) ∧
    (∀ (events : List ProcessingRequest) (k : Nat) (e : GoError)
        (later : List (Option GoError)),
      k < events.length →
      (∀ m ∈ verdicts s (events.take k), isImmediate m = false) →
      (Process s ⟨events, recvEnd, List.replicate k none ++ some e :: later⟩).err = some e ∧
      (Process s ⟨events, recvEnd, List.replicate k none ++ some e :: later⟩).sent =
        verdicts s (events.take (k + 1)) ∧
      (Process s ⟨events, recvEnd, List.replicate k none ++ some e :: later⟩).sent.length =
        k + 1 ∧
      (Process s ⟨events, recvEnd, List.replicate k none ++ some e :: later⟩).unread =
        events.drop (k + 1)) := by
  refine ⟨?_, ?_, ?_⟩
  · intro sendErrs
    simp only [Process]
    unfold ProcessLoop
    rfl
  · intro events sendErrs hse hno
    obtain ⟨h1, -, -, h4, h5⟩ := ProcessLoop_recv_fails recvEnd events s sendErrs hse hno
    exact ⟨h1, by simp only [Process]; rw [h1, verdicts_length], h4, h5⟩
  · intro events k e later hlt hno
    obtain ⟨h1, h2, h3, -⟩ := ProcessLoop_send_fails recvEnd k s events e later hlt hno
    refine ⟨h1, h2, ?_, h3⟩
    simp only [Process]
    rw [h2, verdicts_length, List.length_take]
    omega

/-- Witness for C12: a stream cancelled after a body event and an allowed
request returns nil; a stream whose second send fails returns the send error
and leaves the third event unread. -/
theorem Process_recv_and_send_errors_witness :
    (Process ⟨exampleKeys, []⟩
        ⟨[⟨some (.RequestBody none)⟩, apiKeyRequest "abc123"],
         .grpcStatus .Canceled "context canceled", []⟩).err = none ∧
    (Process ⟨exampleKeys, []⟩
        ⟨[⟨some (.RequestBody none)⟩, apiKeyRequest "abc123", ⟨some (.RequestBody none)⟩],
         .EOF, List.replicate 1 none ++ some (.other "transport is closing") :: []⟩).err =
      some (.other "transport is closing") ∧
    (Process ⟨exampleKeys, []⟩
        ⟨[⟨some (.RequestBody none)⟩, apiKeyRequest "abc123", ⟨some (.RequestBody none)⟩],
         .EOF, List.replicate 1 none ++ some (.other "transport is closing") :: []⟩).unread =
      [⟨some (.RequestBody none)⟩] :=
  ⟨((Process_recv_and_send_errors ⟨exampleKeys, []⟩
      (.grpcStatus .Canceled "context canceled")).2.1
      [⟨some (.RequestBody none)⟩, apiKeyRequest "abc123"] [] (by decide) (by decide)).2.2.1
      (Or.inr rfl),
   ((Process_recv_and_send_errors ⟨exampleKeys, []⟩ .EOF).2.2
      [⟨some (.RequestBody none)⟩, apiKeyRequest "abc123", ⟨some (.RequestBody none)⟩]
      1 (.other "transport is closing") [] (by decide) (by decide)).1,
   ((Process_recv_and_send_errors ⟨exampleKeys, []⟩ .EOF).2.2
      [⟨some (.RequestBody none)⟩, apiKeyRequest "abc123", ⟨some (.RequestBody none)⟩]
      1 (.other "transport is closing") [] (by decide) (by decide)).2.2.2⟩

/-! ### Frame of an iteration -/

theorem ProcessLoop_frame (recvEnd : GoError) (s : authServer)
    (sendErrs : List (Option GoError)) (events : List ProcessingRequest) :
    (ProcessLoop recvEnd s sendErrs events).srv.keys = s.keys ∧
    ∀ u, s.count u ≤ (ProcessLoop recvEnd s sendErrs events).srv.count u :=
  have hr : Reachable s (ProcessLoop recvEnd s sendErrs events).srv :=
    Reachable.trans_step Reachable.start recvEnd sendErrs events
  ⟨hr.frame.1, fun u => (hr.frame.2 u).1⟩

/-- C13: one iteration of the loop of `Process`, on any event, never modifies
the key mapping, and either leaves the counter map unchanged or, the event
being a request-headers event whose key resolves to a username, raises the
counter of that username by exactly 1 and leaves the counter of every other
username unchanged; hence over any sequence of iterations, and over any call
of `Process`, the key mapping stays the same and no counter decreases. -/
theorem handle_counter_frame (s : authServer) :
    (∀ (sendErrs : List (Option GoError)) (req : ProcessingRequest),
      (handle s sendErrs req).srv.keys = s.keys ∧
      ((handle s sendErrs req).srv.userQueries = s.userQueries ∨
       ∃ (v : Option HttpHeaders) (username : String),
         req = ⟨some (.RequestHeaders v)⟩ ∧
         s.keys.get? (extractApiKey v) = some username ∧
         (handle s sendErrs req).srv.count username = s.count username + 1 ∧
         ∀ u2, u2 ≠ username → (handle s sendErrs req).srv.count u2 = s.count u2)) ∧
    (∀ s2, Reachable s s2 → s2.keys = s.keys ∧ ∀ u, s.count u ≤ s2.count u) ∧
    (∀ st : Stream,
      (Process s st).srv.keys = s.keys ∧ ∀ u, s.count u ≤ (Process s st).srv.count u) := by
  refine ⟨?_, ?_, ?_⟩
  · intro sendErrs req
    obtain ⟨hk, hcase⟩ := handle_effect s sendErrs req
    refine ⟨hk, ?_⟩
    rcases hcase with h | ⟨v, username, hreq, hkey, -, h⟩
    · left; rw [h]
    · right
      refine ⟨v, username, hreq, hkey, ?_, ?_⟩
      · rw [h, count_set_self]
      · intro u2 hu2
        rw [h, count_set_other s username u2 _ hu2]
  · intro s2 hr
    exact ⟨hr.frame.1, fun u => (hr.frame.2 u).1⟩
  · intro st
    exact ProcessLoop_frame st.recvEnd s st.sendErrs st.events

/-- Witness for C13: a request of `bob` raises the counter of `bob` from 1 to 2
and leaves the counter of `alice` at 3. -/
theorem handle_counter_frame_witness :
    (handle ⟨exampleKeys, [("alice", 3), ("bob", 1)]⟩ [] (apiKeyRequest "xyz789")).srv.count
      "bob" = 2 ∧
    (handle ⟨exampleKeys, [("alice", 3), ("bob", 1)]⟩ [] (apiKeyRequest "xyz789")).srv.count
      "alice" = 3 ∧
    authServer.count ⟨exampleKeys, [("alice", 3), ("bob", 1)]⟩ "alice" ≤
      (Process ⟨exampleKeys, [("alice", 3), ("bob", 1)]⟩
        (exampleStream "abc123")).srv.count "alice" :=
  ⟨by decide, by decide,
   ((handle_counter_frame ⟨exampleKeys, [("alice", 3), ("bob", 1)]⟩).2.2
      (exampleStream "abc123")).2 "alice"⟩

/-! ### One counter per username -/

theorem verdicts_quota_used (events : List ProcessingRequest) (s : authServer)
    (username : String) (h5 : 5 ≤ s.count username)
    (hev : ∀ e ∈ events, isRequestEventOf s.keys username e) :
    verdicts s events = List.replicate events.length quotaResponse ∧
    stateAfter s events = s := by
  induction events with
  | nil => exact ⟨rfl, rfl⟩
  | cons req rest ih =>
    obtain ⟨v, rfl, hkey⟩ := hev _ (List.mem_cons_self req rest)
    have hh := handle_quota_used s [] v username hkey h5
    obtain ⟨i1, i2⟩ := ih (fun e he => hev e (List.mem_cons_of_mem _ he))
    simp only [verdicts, stateAfter, hh, i1, i2, List.length_cons, List.replicate_succ,
      List.singleton_append, and_self]

theorem verdicts_quota_any (events : List ProcessingRequest) (s : authServer)
    (username : String) (hev : ∀ e ∈ events, isRequestEventOf s.keys username e) :
    verdicts s events =
      List.replicate (min (5 - s.count username) events.length) continueResponse ++
        List.replicate (events.length - (5 - s.count username)) quotaResponse := by
  by_cases hc : s.count username ≤ 5
  · exact (verdicts_quota_from events s username _ rfl hc hev).1
  · have h0 : 5 - s.count username = 0 := by omega
    rw [(verdicts_quota_used events s username (by omega) hev).1, h0]
    simp

/-- C14: the quota is keyed by username. If two API keys (distinct ones in
particular) resolve to the same username, then for every sequence of request-headers events carrying
either key, handled one after another, the verdicts are continue for the first
`5 - c` events (`c` being the counter of the username at the start) and the
429 response for every further one, whichever of the two keys each event
carries: both keys draw on the one counter of the username, at most 5
events are allowed across both keys together, and the counter ends at
`min (c + n) 5`. -/
theorem shared_quota_across_keys (s : authServer) (key1 key2 username : String)
    (h1 : s.keys.get? key1 = some username)
    (h2 : s.keys.get? key2 = some username) (events : List ProcessingRequest)
    (hev : ∀ e ∈ events, ∃ v : Option HttpHeaders,
      e = ⟨some (.RequestHeaders v)⟩ ∧ (extractApiKey v = key1 ∨ extractApiKey v = key2)) :
    verdicts s events =
      List.replicate (min (5 - s.count username) events.length)
          ⟨some (.RequestHeaders ⟨none⟩)⟩ ++
        List.replicate (events.length - (5 - s.count username))
          ⟨some (.ImmediateResponse ⟨some ⟨429⟩, none,
            "Daily quota has been reached and will reset at 4:00AM EST."⟩)⟩ ∧
    (verdicts s events).count ⟨some (.RequestHeaders ⟨none⟩)⟩ ≤ 5 ∧
    (s.count username ≤ 5 →
      (stateAfter s events).count username = min (s.count username + events.length) 5) := by
  have hev2 : ∀ e ∈ events, isRequestEventOf s.keys username e := by
    intro e he
    obtain ⟨v, hv, hk⟩ := hev e he
    refine ⟨v, hv, ?_⟩
    rcases hk with hk | hk
    · rw [hk]; exact h1
    · rw [hk]; exact h2
  have hv := verdicts_quota_any events s username hev2
  have hq : quotaResponse ≠ continueResponse := by decide
  refine ⟨hv, ?_, fun hc => (verdicts_quota_from events s username _ rfl hc hev2).2⟩
  have hc : (⟨some (.RequestHeaders ⟨none⟩)⟩ : ProcessingResponse) = continueResponse := rfl
  rw [hv, hc, List.count_append, List.count_replicate_self, List.count_replicate]
  simp only [beq_iff_eq, hq, if_false]
  omega

/-- Witness for C14: the keys `abc123` and `def456` both belong to `alice`;
of seven requests alternating between them the first five are allowed and the
last two denied. -/
theorem shared_quota_across_keys_witness :
    "abc123" ≠ "def456" ∧
    verdicts ⟨[("abc123", "alice"), ("def456", "alice")], []⟩
      [apiKeyRequest "abc123", apiKeyRequest "def456", apiKeyRequest "abc123",
       apiKeyRequest "def456", apiKeyRequest "abc123", apiKeyRequest "def456",
       apiKeyRequest "abc123"] =
    List.replicate 5 continueResponse ++ List.replicate 2 quotaResponse :=
  ⟨by decide, (shared_quota_across_keys ⟨[("abc123", "alice"), ("def456", "alice")], []⟩
    "abc123" "def456" "alice" (by decide) (by decide)
    [apiKeyRequest "abc123", apiKeyRequest "def456", apiKeyRequest "abc123",
     apiKeyRequest "def456", apiKeyRequest "abc123", apiKeyRequest "def456",
     apiKeyRequest "abc123"]
    (by
      intro e he
      simp only [List.mem_cons, List.mem_singleton, List.not_mem_nil, or_false] at he
      rcases he with rfl | rfl | rfl | rfl | rfl | rfl | rfl
      · exact ⟨_, rfl, Or.inl (by decide)⟩
      · exact ⟨_, rfl, Or.inr (by decide)⟩
      · exact ⟨_, rfl, Or.inl (by decide)⟩
      · exact ⟨_, rfl, Or.inr (by decide)⟩
      · exact ⟨_, rfl, Or.inl (by decide)⟩
      · exact ⟨_, rfl, Or.inr (by decide)⟩
      · exact ⟨_, rfl, Or.inl (by decide)⟩)).1⟩

/-! ### The continue verdict -/

/-- C16: the continue verdict is one and the same message whatever the kind of
the event: `sendContinueResponse` hands to `Send` the request-headers response
variant with an empty `HeadersResponse` (no common response, so no header
mutation and no status); this is the message sent for an allowed
request-headers event and for every event of another kind, and for an event of
another kind it is never of the variant matching the kind of the event; every
message an iteration sends is this one or an immediate response. -/
theorem continue_verdict_same_for_all_kinds (s : authServer)
    (sendErrs : List (Option GoError)) (req : ProcessingRequest) :
    (sendContinueResponse sendErrs).2.2 = [⟨some (.RequestHeaders ⟨none⟩)⟩] ∧
    (isRequestHeaders req = false →
      (handle s sendErrs req).sent = [⟨some (.RequestHeaders ⟨none⟩)⟩] ∧
      ∀ m ∈ (handle s sendErrs req).sent, sameKind req m = false) ∧
    (∀ (v : Option HttpHeaders) (username : String),
      req = ⟨some (.RequestHeaders v)⟩ →
      s.keys.get? (extractApiKey v) = some username → s.count username < 5 →
      (handle s sendErrs req).sent = [⟨some (.RequestHeaders ⟨none⟩)⟩]) ∧
    (∀ m ∈ (handle s sendErrs req).sent,
      isImmediate m = true ∨ m = ⟨some (.RequestHeaders ⟨none⟩)⟩) := by
  have hc : continueResponse = ⟨some (.RequestHeaders ⟨none⟩)⟩ := rfl
  refine ⟨?_, ?_, ?_, ?_⟩
  · rw [sendContinueResponse, Send_sent, hc]
  · intro hk
    have hh := handle_other_kind s sendErrs req hk
    rw [hh]
    refine ⟨by rw [hc], ?_⟩
    intro m hm
    simp only [List.mem_singleton] at hm
    subst hm
    obtain ⟨r⟩ := req
    cases r with
    | none => rfl
    | some k => cases k <;> first | rfl | (simp [isRequestHeaders] at hk)
  · intro v username hreq hkey hlt
    subst hreq
    rw [handle_allowed s sendErrs v username hkey hlt, hc]
  · intro m hm
    obtain ⟨m2, h1, -, -, -, h5⟩ := handle_shape s sendErrs req
    rw [h1, List.mem_singleton] at hm
    subst hm
    rcases h5 with ⟨hi, -⟩ | ⟨hm2, -⟩
    · exact Or.inl hi
    · exact Or.inr (hm2.trans hc)

/-- Witness for C16: a response-body event is answered with the
request-headers response variant, not with a response-body response. -/
theorem continue_verdict_same_for_all_kinds_witness :
    (handle ⟨exampleKeys, []⟩ [] ⟨some (.ResponseBody (some ⟨"payload", true⟩))⟩).sent =
      [⟨some (.RequestHeaders ⟨none⟩)⟩] ∧
    sameKind ⟨some (.ResponseBody (some ⟨"payload", true⟩))⟩
      ⟨some (.RequestHeaders ⟨none⟩)⟩ = false ∧
    (handle ⟨exampleKeys, []⟩ [] (apiKeyRequest "abc123")).sent =
      [⟨some (.RequestHeaders ⟨none⟩)⟩] :=
  ⟨((continue_verdict_same_for_all_kinds ⟨exampleKeys, []⟩ []
      ⟨some (.ResponseBody (some ⟨"payload", true⟩))⟩).2.1 rfl).1,
   by decide,
   (continue_verdict_same_for_all_kinds ⟨exampleKeys, []⟩ [] (apiKeyRequest "abc123")).2.2.1
     (some ⟨some ⟨[some ⟨"x-api-key", "", "abc123"⟩]⟩, false⟩) "alice" rfl (by decide)
     (by decide)⟩

/-! ### The entries of the loaded mapping -/

theorem splitGo_comma_no_comma (s cur : List Char) (hcur : ',' ∉ cur) :
    ∀ f ∈ strings.splitGo [','] 0 s cur, ',' ∉ f := by
  induction s generalizing cur with
  | nil =>
    intro f hf
    simp only [strings.splitGo, List.mem_singleton] at hf
    subst hf
    simpa using hcur
  | cons c cs ih =>
    intro f hf
    by_cases hc : c = ','
    · subst hc
      have hp : List.isPrefixOf [','] (',' :: cs) = true := by simp [List.isPrefixOf]
      simp only [strings.splitGo, hp, if_true, List.length_singleton, Nat.sub_self,
        List.mem_cons] at hf
      rcases hf with rfl | hf
      · simpa using hcur
      · exact ih [] (by simp) f hf
    · have hp : List.isPrefixOf [','] (c :: cs) = false := by
        simp [List.isPrefixOf, Ne.symm hc]
      simp only [strings.splitGo, hp, Bool.false_eq_true, if_false] at hf
      refine ih (c :: cur) ?_ f hf
      simp only [List.mem_cons, not_or]
      exact ⟨Ne.symm hc, hcur⟩

theorem Split_comma_no_comma (line f : String) (hf : f ∈ strings.Split line ",") :
    ',' ∉ f.data := by
  have hsep : (",".data = []) = False := by simp
  simp only [strings.Split, hsep, if_false, List.mem_map] at hf
  obtain ⟨l, hl, rfl⟩ := hf
  exact splitGo_comma_no_comma line.data [] (by simp) l hl

theorem TrimSpace_data (s : String) :
    (strings.TrimSpace s).data =
      List.rdropWhile unicode.IsSpace (s.data.dropWhile unicode.IsSpace) := rfl

theorem TrimSpace_subset (s : String) (c : Char) (hc : c ∈ (strings.TrimSpace s).data) :
    c ∈ s.data := by
  rw [TrimSpace_data] at hc
  exact (List.dropWhile_suffix unicode.IsSpace).subset
    ((List.rdropWhile_prefix unicode.IsSpace _).subset hc)

theorem TrimSpace_noOuterSpace (s : String) : noOuterSpace (strings.TrimSpace s) := by
  constructor
  · intro c hc
    rw [TrimSpace_data] at hc
    obtain ⟨t, ht⟩ := List.rdropWhile_prefix unicode.IsSpace
      (s.data.dropWhile unicode.IsSpace)
    have hnot := List.head?_dropWhile_not unicode.IsSpace s.data
    cases hl : List.rdropWhile unicode.IsSpace (s.data.dropWhile unicode.IsSpace) with
    | nil => rw [hl] at hc; simp at hc
    | cons x xs =>
      rw [hl] at hc ht
      simp only [List.head?_cons, Option.some.injEq] at hc
      subst hc
      rw [← ht] at hnot
      simpa using hnot
  · intro c hc
    rw [TrimSpace_data] at hc
    have hne : List.rdropWhile unicode.IsSpace (s.data.dropWhile unicode.IsSpace) ≠ [] := by
      intro h
      rw [h] at hc
      simp at hc
    rw [List.getLast?_eq_getLast _ hne] at hc
    have := List.rdropWhile_last_not unicode.IsSpace _ hne
    rw [Option.some.inj hc] at this
    simpa using this

theorem lineEntry_clean (line : String) (e : String × String)
    (h : lineEntry line = some e) : cleanEntry e := by
  unfold lineEntry at h
  rcases hsp : strings.Split line "," with _ | ⟨a, _ | ⟨b, _ | ⟨c, r⟩⟩⟩
  · simp [hsp] at h
  · simp [hsp] at h
  · simp only [hsp] at h
    by_cases hf : strings.TrimSpace a ≠ "" ∧ strings.TrimSpace b ≠ ""
    · rw [if_pos hf] at h
      simp only [Option.some.injEq] at h
      subst h
      have ha : a ∈ strings.Split line "," := by rw [hsp]; simp
      have hb : b ∈ strings.Split line "," := by rw [hsp]; simp
      exact ⟨hf.1, hf.2,
        fun hc => Split_comma_no_comma line a ha (TrimSpace_subset a _ hc),
        fun hc => Split_comma_no_comma line b hb (TrimSpace_subset b _ hc),
        TrimSpace_noOuterSpace a, TrimSpace_noOuterSpace b⟩
    · rw [if_neg hf] at h
      simp at h
  · simp [hsp] at h

theorem GoMap.mem_set {V : Type} (m : GoMap V) (k : String) (v : V) (e : String × V)
    (h : e ∈ m.set k v) : e ∈ m ∨ e = (k, v) := by
  induction m with
  | nil =>
    simp only [GoMap.set, List.mem_singleton] at h
    exact Or.inr h
  | cons x rest ih =>
    obtain ⟨k1, v1⟩ := x
    by_cases hk : k1 = k
    · simp only [GoMap.set, hk, if_true, List.mem_cons] at h
      rcases h with h | h
      · exact Or.inr h
      · exact Or.inl (List.mem_cons_of_mem _ h)
    · simp only [GoMap.set, hk, if_false, List.mem_cons] at h
      rcases h with h | h
      · exact Or.inl (by rw [h]; exact List.mem_cons_self _ _)
      · rcases ih h with h2 | h2
        · exact Or.inl (List.mem_cons_of_mem _ h2)
        · exact Or.inr h2

theorem GoMap.mem_of_get? {V : Type} (m : GoMap V) (k : String) (v : V)
    (h : m.get? k = some v) : (k, v) ∈ m := by
  induction m with
  | nil => simp [GoMap.get?] at h
  | cons x rest ih =>
    obtain ⟨k1, v1⟩ := x
    by_cases hk : k1 = k
    · simp only [GoMap.get?, hk, if_true, Option.some.injEq] at h
      rw [hk, h]
      exact List.mem_cons_self _ _
    · simp only [GoMap.get?, hk, if_false] at h
      exact List.mem_cons_of_mem _ (ih h)

theorem foldl_loadLine_clean (lines : List String) (st : LoadState)
    (h : ∀ e ∈ st.keys, cleanEntry e) :
    ∀ e ∈ (lines.foldl loadLine st).keys, cleanEntry e := by
  induction lines generalizing st with
  | nil => exact h
  | cons line rest ih =>
    refine ih (loadLine st line) ?_
    rw [loadLine_eq]
    cases hent : lineEntry line with
    | none => exact h
    | some e0 =>
      obtain ⟨key, username⟩ := e0
      intro e he
      rcases GoMap.mem_set st.keys key username e he with h1 | h1
      · exact h e h1
      · rw [h1]
        exact lineEntry_clean line _ hent

/-- C15: every entry of the mapping `newAuthServer` builds, from whatever key
file, has a non-empty key and a non-empty username, neither of which holds a
comma or starts or ends with a white-space character; and a line that splits
into exactly two comma-separated fields of which one is empty after trimming
only advances the line counter: it adds no entry and logs no warning. -/
theorem newAuthServer_entries_clean (keyFilePath : String)
    (opened : Except GoError KeyFile) (srv : authServer) (log : List String)
    (hload : newAuthServer keyFilePath opened = .ok (srv, log)) :
    (∀ key username, srv.keys.get? key = some username →
      key ≠ "" ∧ username ≠ "" ∧ ',' ∉ key.data ∧ ',' ∉ username.data ∧
      noOuterSpace key ∧ noOuterSpace username) ∧
    (∀ e ∈ srv.keys, cleanEntry e) ∧
    (∀ (st : LoadState) (line a b : String),
      strings.Split line "," = [a, b] →
      (strings.TrimSpace a = "" ∨ strings.TrimSpace b = "") →
      loadLine st line = { st with lineNum := st.lineNum + 1 }) := by
  obtain ⟨file, -, -, hsrv, -⟩ := newAuthServer_keys keyFilePath opened srv log hload
  have hall : ∀ e ∈ srv.keys, cleanEntry e := by
    rw [hsrv]
    exact foldl_loadLine_clean file.lines _ (by simp)
  refine ⟨?_, hall, ?_⟩
  · intro key username hget
    exact hall (key, username) (GoMap.mem_of_get? _ _ _ hget)
  · intro st line a b hsp hempty
    have hent : lineEntry line = none := by
      unfold lineEntry
      simp only [hsp]
      rw [if_neg]
      intro hboth
      rcases hempty with h | h
      · exact hboth.1 h
      · exact hboth.2 h
    have hmal : isMalformed line = false := by simp [isMalformed, hsp]
    rw [loadLine_eq, hent, hmal]
    rfl

/-- Witness for C15: a file whose first line has padded fields and whose other
lines have an empty username or an empty key: the one entry is clean, and
the line `key,` changes neither the mapping nor the log. -/
theorem newAuthServer_entries_clean_witness :
    cleanEntry ("abc123", "alice") ∧
    loadLine ⟨[("abc123", "alice")], 1, []⟩ "key," = ⟨[("abc123", "alice")], 2, []⟩ :=
  have h := newAuthServer_entries_clean "keys.txt"
    (.ok ⟨[" abc123 ,\talice ", "key,", " ,bob"], none⟩)
    ⟨[("abc123", "alice")], []⟩ ["Loaded 1 API keys."] rfl
  ⟨h.2.1 ("abc123", "alice") (by decide),
   h.2.2 ⟨[("abc123", "alice")], 1, []⟩ "key," "key" "" (by decide) (Or.inr (by decide))⟩

end AuthExtProc
